import Mathlib

/-!
# Progress aggregation and import orchestration of the vSphere template post-processor

A shallow embedding of `progress.go` (the per-item progress watchers, the lease
heartbeat and the shutdown barrier of `UploaderProgress`) and of the control flow of
`plugin.go` (`OVF.upload`, `PostProcessor.PostProcess`).

* `int64` / `int32` values are integers, every arithmetic operation is followed by an
  explicit two's-complement wrap.
* `float32` values are the rationals they denote (plus infinities and NaN); every
  operation rounds its exact result to the nearest binary32 value, ties to even.
* Goroutines are components of one state record; a schedule is a list of the `select`
  branches that were taken, and `UploaderProgress.step` executes one of them.
* Remote calls are answered by a record of oracle results, and a function that performs
  calls returns the list of calls it made together with its result.
-/

/-! ## Machine integers -/

/-- Two's-complement wrap of an integer into the `int64` range. -/
def wrap64 (z : ℤ) : ℤ := (z + 9223372036854775808) % 18446744073709551616 - 9223372036854775808

/-- Membership in the `int64` range. -/
def isInt64 (z : ℤ) : Prop := -9223372036854775808 ≤ z ∧ z < 9223372036854775808

instance (z : ℤ) : Decidable (isInt64 z) := by unfold isInt64; infer_instance

/-! ## IEEE 754 binary32 arithmetic -/

/-- Nearest integer to a rational, ties to the even neighbour. -/
def roundHalfEven (v : ℚ) : ℤ :=
  let f := ⌊v⌋
  let r := v - f
  if r < 1 / 2 then f
  else if 1 / 2 < r then f + 1
  else if f % 2 = 0 then f else f + 1

/-- Exponent of the unit in the last place of the binary32 value nearest to `q`:
24 significant bits above the binade `2 ^ Int.log 2 |q|`, never below the subnormal
quantum `2 ^ (-149)`. -/
def ulpExp (q : ℚ) : ℤ := max (Int.log 2 |q|) (-126) - 23

/-- Round a rational to binary32 precision (round to nearest, ties to even), before the
overflow test. -/
def roundF32 (q : ℚ) : ℚ := (roundHalfEven (q / 2 ^ ulpExp q) : ℚ) * 2 ^ ulpExp q

/-- A `float32` value. The sign of a zero is not recorded: no operation of the program
can observe it, because every divisor in the program is `100.0` or the conversion of an
integer. -/
inductive F32 where
  | fin (q : ℚ)
  | inf (neg : Bool)
  | nan
  deriving DecidableEq, Repr

/-- The `float32` nearest to an exact result; magnitudes that round to `2 ^ 128` or more
overflow to an infinity. -/
def F32.ofRat (q : ℚ) : F32 :=
  let r := roundF32 q
  if 2 ^ 128 ≤ |r| then .inf (decide (r < 0)) else .fin r

/-- Conversion `float32(z)` of an integer. -/
def F32.ofInt (z : ℤ) : F32 := F32.ofRat z

/-- Division `a / b` of two `float32` values. -/
def F32.div : F32 → F32 → F32
  | .nan, _ => .nan
  | _, .nan => .nan
  | .inf _, .inf _ => .nan
  | .inf s, .fin b => .inf (xor s (decide (b < 0)))
  | .fin _, .inf _ => .fin 0
  | .fin a, .fin b =>
    if b = 0 then (if a = 0 then .nan else .inf (decide (a < 0))) else F32.ofRat (a / b)

/-- Product `a * b` of two `float32` values. -/
def F32.mul : F32 → F32 → F32
  | .nan, _ => .nan
  | _, .nan => .nan
  | .inf s, .inf t => .inf (xor s t)
  | .inf s, .fin b => if b = 0 then .nan else .inf (xor s (decide (b < 0)))
  | .fin a, .inf t => if a = 0 then .nan else .inf (xor (decide (a < 0)) t)
  | .fin a, .fin b => F32.ofRat (a * b)

/-- Truncation of a rational toward zero. -/
def truncQ (q : ℚ) : ℤ := if 0 ≤ q then ⌊q⌋ else ⌈q⌉

/-- Conversion `int64(f)`: truncation toward zero. For NaN, the infinities and values
outside the `int64` range the language leaves the result to the implementation; the
value used here is the one the amd64 conversion instruction produces. -/
def F32.toInt64 : F32 → ℤ
  | .fin q =>
    if -9223372036854775808 ≤ truncQ q ∧ truncQ q < 9223372036854775808 then truncQ q
    else -9223372036854775808
  | _ => -9223372036854775808

/-- Conversion `int32(f)`, with the same convention as `F32.toInt64`. -/
def F32.toInt32 : F32 → ℤ
  | .fin q =>
    if -2147483648 ≤ truncQ q ∧ truncQ q < 2147483648 then truncQ q else -2147483648
  | _ => -2147483648

/-! ## progress.go -/

/-- A `types.OvfFileItem`, as far as the program reads it. -/
structure OvfFileItem where
  DeviceId : String
  Path : String
  Size : ℤ
  Create : Bool
  deriving DecidableEq, Repr

/-- An `uploadItem`: the destination `url` and the file `item`. The channel `ch` is
represented by the receives that a schedule delivers. -/
structure uploadItem where
  url : String
  item : OvfFileItem
  deriving DecidableEq, Repr

/-- A `progress.Report` as `waitForProgress` reads it: `Percentage()`, and whether
`Error()` is non-nil. -/
structure Report where
  Percentage : F32
  isError : Bool
  deriving DecidableEq, Repr

/-- Result of one receive `progress, ok := <-item.ch`: a report (`ok`), or the closed
channel (`!ok`). -/
inductive Recv where
  | value (progress : Report)
  | closed
  deriving DecidableEq, Repr

/-- The branch of the `select` in `waitForProgress` that is taken. -/
inductive Select where
  | done
  | recv (m : Recv)
  deriving DecidableEq, Repr

/-- Where a `waitForProgress` goroutine is: still in its loop, or returned through the
`<-p.done` case, through the error check, or through the closed-channel case. -/
inductive Status where
  | running
  | stopped
  | failed
  | closed
  deriving DecidableEq, Repr

/-- Local state of one `waitForProgress` goroutine: its `total`, its `pos`, and where it
is. -/
structure Reporter where
  total : ℤ
  pos : ℤ
  status : Status
  deriving DecidableEq, Repr

/-- The byte approximation `int64(float32(total) * (progress.Percentage() / 100.0))`: a
`float32` division and a `float32` product, each rounded on its own, then the conversion
to `int64`. -/
def approxBytes (total : ℤ) (percentage : F32) : ℤ :=
  F32.toInt64 (F32.mul (F32.ofInt total) (F32.div percentage (.fin 100)))

/-- One pass through the loop body of `waitForProgress`: the new local state, and the
argument of `atomic.AddInt64(&p.pos, _)` when the call is made. -/
def Reporter.select (w : Reporter) : Select → Reporter × Option ℤ
  | .done => ({ w with status := .stopped }, none)
  | .recv (.value progress) =>
    if progress.isError then ({ w with status := .failed }, none)
    else
      let x := approxBytes w.total progress.Percentage
      ({ w with pos := x }, some (wrap64 (x - w.pos)))
  | .recv .closed => ({ w with status := .closed }, some (wrap64 (w.total - w.pos)))

/-- The goroutine `waitForProgress(item)` at its entry. -/
def Reporter.start (item : uploadItem) : Reporter := ⟨item.item.Size, 0, .running⟩

/-- The goroutine `waitForProgress` run over the `select` branches it takes, in order:
the final local state and the deltas handed to `atomic.AddInt64`, oldest first. Branches
listed after the goroutine has returned are not taken. -/
def waitForProgress (w : Reporter) : List Select → Reporter × List ℤ
  | [] => (w, [])
  | c :: cs =>
    if w.status = .running then
      ((waitForProgress (w.select c).1 cs).1,
        (w.select c).2.toList ++ (waitForProgress (w.select c).1 cs).2)
    else (w, [])

/-- Effect of `atomic.AddInt64(&p.pos, delta)` on the shared counter. -/
def addInt64 (pos delta : ℤ) : ℤ := wrap64 (pos + delta)

/-- The heartbeat's `int32(float32(100 * pos) / float32(total))`. -/
def percent (pos total : ℤ) : ℤ :=
  F32.toInt32 (F32.div (F32.ofInt (wrap64 (100 * pos))) (F32.ofInt total))

/-- The struct `UploaderProgress` together with the goroutines it started. -/
structure UploaderProgress where
  /-- Field `pos`, the shared byte counter. -/
  pos : ℤ
  /-- Field `total`. -/
  total : ℤ
  /-- Whether the channel `done` has been closed. -/
  done : Bool
  /-- Counter of the WaitGroup `wg`. -/
  wg : ℤ
  /-- The goroutines `waitForProgress(item)`, in item order. -/
  reporters : List Reporter
  /-- Whether the goroutine `run` is still in its loop. -/
  running : Bool
  /-- Arguments of the calls `HttpNfcLeaseProgress(ctx, percent)`, oldest first. -/
  reported : List ℤ
  /-- Whether `p.wg.Wait()` inside `Done` has returned. -/
  waited : Bool
  deriving DecidableEq, Repr

/-- `NewUploaderProgress(client, lease, items)`: sums the sizes, starts one watcher per
item, adds one to the WaitGroup and starts `run`. -/
def NewUploaderProgress (items : List uploadItem) : UploaderProgress where
  pos := 0
  total := items.foldl (fun t item => wrap64 (t + item.item.Size)) 0
  done := false
  wg := 1
  reporters := items.map Reporter.start
  running := true
  reported := []
  waited := false

/-- One scheduling step of the system of goroutines. -/
inductive Step where
  /-- Watcher `i` takes the `<-item.ch` case and receives `m`. -/
  | recv (i : ℕ) (m : Recv)
  /-- Watcher `i` takes the `<-p.done` case. -/
  | stop (i : ℕ)
  /-- The heartbeat `run` takes the `<-tick.C` case. -/
  | tick
  /-- The heartbeat `run` takes the `<-p.done` case and returns (deferred `wg.Done()`). -/
  | runStop
  /-- In `Done`: `close(p.done)`. -/
  | closeDone
  /-- In `Done`: `p.wg.Wait()` returns. -/
  | waitReturn
  deriving DecidableEq, Repr

/-- Watcher `i` takes the branch `c`; `none` when there is no such watcher or it has
returned. -/
def UploaderProgress.watch (p : UploaderProgress) (i : ℕ) (c : Select) : Option UploaderProgress :=
  match p.reporters[i]? with
  | none => none
  | some w =>
    if w.status = .running then
      some { p with
        reporters := p.reporters.set i (w.select c).1
        pos := match (w.select c).2 with
          | some delta => addInt64 p.pos delta
          | none => p.pos }
    else none

/-- Execute one scheduling step; `none` when the step cannot be taken in this state (the
goroutine has returned, the `done` channel is not closed yet, the WaitGroup counter is
not zero, or `done` would be closed twice). -/
def UploaderProgress.step (p : UploaderProgress) : Step → Option UploaderProgress
  | .recv i m => p.watch i (.recv m)
  | .stop i => if p.done then p.watch i .done else none
  | .tick =>
    if p.running then some { p with reported := p.reported ++ [percent p.pos p.total] }
    else none
  | .runStop =>
    if p.running ∧ p.done then some { p with running := false, wg := p.wg - 1 } else none
  | .closeDone => if p.done then none else some { p with done := true }
  | .waitReturn =>
    if p.done ∧ p.wg = 0 ∧ ¬ p.waited then some { p with waited := true } else none

/-- Execute a schedule. -/
def UploaderProgress.exec (p : UploaderProgress) : List Step → Option UploaderProgress
  | [] => some p
  | a :: rest =>
    match p.step a with
    | some q => q.exec rest
    | none => none

/-- The receives delivered to watcher `i` by a schedule, in order. -/
def recvsOf (i : ℕ) : List Step → List Recv
  | [] => []
  | .recv j m :: rest => if j = i then m :: recvsOf i rest else recvsOf i rest
  | _ :: rest => recvsOf i rest

/-- A stream of non-error reports ended by the close of the channel. -/
def normalStream : List Recv → Bool
  | [] => false
  | [.closed] => true
  | .value progress :: rest => !progress.isError && normalStream rest
  | .closed :: _ :: _ => false

/-- A finite percentage between 0 and 100. -/
def F32.isPercent : F32 → Prop
  | .fin q => 0 ≤ q ∧ q ≤ 100
  | _ => False

instance (x : F32) : Decidable x.isPercent := by
  cases x <;> unfold F32.isPercent <;> infer_instance

/-! ## plugin.go -/

/-- A Go `error` value, identified with its message. -/
abbrev GoError := String

/-- A `types.LocalizedMethodFault`, as far as `upload` reads it. -/
structure LocalizedMethodFault where
  LocalizedMessage : String
  deriving DecidableEq, Repr

/-- The `types.OvfCreateImportSpecResult` returned by `CreateImportSpec`. A Go slice that
may be `nil` is an `Option`: `none` is the `nil` slice. -/
structure OvfCreateImportSpecResult where
  FileItem : List OvfFileItem
  Warning : Option (List LocalizedMethodFault)
  Error : Option (List LocalizedMethodFault)
  deriving DecidableEq, Repr

/-- One entry of `info.DeviceUrl`. -/
structure HttpNfcLeaseDeviceUrl where
  ImportKey : String
  Url : String
  deriving DecidableEq, Repr

/-- The `types.HttpNfcLeaseInfo` returned by `lease.Wait`. -/
structure HttpNfcLeaseInfo where
  Entity : String
  DeviceUrl : List HttpNfcLeaseDeviceUrl
  deriving DecidableEq, Repr

/-- Answers of the collaborators of `upload`: for each call the error it returns (`none`
is a nil error) or its result. The transport `o.uploadItem` is asked by the position of
the item in the list and the item. -/
structure Remote where
  Datacenter : Option GoError
  Datastore : Option GoError
  Folder : Option GoError
  ResourcePool : Option GoError
  CreateImportSpec : Except GoError OvfCreateImportSpecResult
  ImportVApp : Option GoError
  Wait : Except GoError HttpNfcLeaseInfo
  ParseURL : String → Except GoError String
  uploadItem : ℕ → uploadItem → Option GoError
  HttpNfcLeaseComplete : Option GoError

/-- The calls `upload` makes that are visible outside it. -/
inductive Call where
  | Datacenter
  | Datastore
  | Folder
  | ResourcePool
  | CreateImportSpec
  | logWarning (msg : String)
  | ImportVApp
  | Wait
  | NewUploaderProgress (items : List uploadItem)
  | uploadItem (k : ℕ) (item : uploadItem)
  | HttpNfcLeaseComplete
  | Done
  deriving DecidableEq, Repr

/-- How a call of `upload` ends: it returns an entity reference (`none` is `nil`) and an
error (`none` is `nil`), or it panics. -/
inductive Outcome where
  | returned (entity : Option String) (err : Option GoError)
  | panicked
  deriving DecidableEq, Repr

/-- The loop `for _, item := range items` of `upload`, from the item at position `k` on:
the transport calls made, and the first error returned. -/
def upload.loop (transport : ℕ → uploadItem → Option GoError) :
    ℕ → List uploadItem → List Call × Option GoError
  | _, [] => ([], none)
  | k, item :: rest =>
    match transport k item with
    | some err => ([Call.uploadItem k item], some err)
    | none =>
      (Call.uploadItem k item :: (upload.loop transport (k + 1) rest).1,
        (upload.loop transport (k + 1) rest).2)

/-- The end of `upload`: start the updater, defer `updater.Done()`, upload the items in
order and return at the first error, otherwise complete the lease. The deferred call
runs after the operands of the `return` statement have been evaluated. -/
def upload.transfer (r : Remote) (info : HttpNfcLeaseInfo) (items : List uploadItem) :
    List Call × Outcome :=
  match (upload.loop r.uploadItem 0 items).2 with
  | some err =>
    (Call.NewUploaderProgress items :: (upload.loop r.uploadItem 0 items).1 ++ [Call.Done],
      .returned none (some err))
  | none =>
    (Call.NewUploaderProgress items :: (upload.loop r.uploadItem 0 items).1
        ++ [Call.HttpNfcLeaseComplete, Call.Done],
      .returned (some info.Entity) r.HttpNfcLeaseComplete)

/-- The nested loops of `upload` that pair every device URL with the file items of the
same device id, in that order, stopping at the first URL that does not parse. -/
def upload.items (parseURL : String → Except GoError String)
    (devices : List HttpNfcLeaseDeviceUrl) (files : List OvfFileItem) :
    Except GoError (List uploadItem) :=
  devices.foldlM (fun acc device =>
    files.foldlM (fun acc item =>
      if device.ImportKey != item.DeviceId then pure acc
      else
        match parseURL device.Url with
        | .error err => .error err
        | .ok url => pure (acc ++ [⟨url, item⟩])) acc) []

/-- The middle of `upload`: open the import lease, wait for it, build the items, then
transfer. -/
def upload.lease (r : Remote) (spec : OvfCreateImportSpecResult) : List Call × Outcome :=
  match r.ImportVApp with
  | some err => ([Call.ImportVApp], .returned none (some err))
  | none =>
    match r.Wait with
    | .error err => ([Call.ImportVApp, Call.Wait], .returned none (some err))
    | .ok info =>
      match upload.items r.ParseURL info.DeviceUrl spec.FileItem with
      | .error err => ([Call.ImportVApp, Call.Wait], .returned none (some err))
      | .ok items =>
        ([Call.ImportVApp, Call.Wait] ++ (upload.transfer r info items).1,
          (upload.transfer r info items).2)

/-- The part of `upload` that follows a successful `CreateImportSpec`: return the first
reported fault as an error when `spec.Error != nil`, log the warnings, go on to the
lease. Indexing a non-nil empty slice panics. -/
def upload.checkSpec (r : Remote) (spec : OvfCreateImportSpecResult) : List Call × Outcome :=
  match spec.Error with
  | some [] => ([], .panicked)
  | some (fault :: _) => ([], .returned none (some fault.LocalizedMessage))
  | none =>
    ((spec.Warning.getD []).map (fun w => Call.logWarning w.LocalizedMessage)
        ++ (upload.lease r spec).1,
      (upload.lease r spec).2)

/-- The method `upload`: resolve the inventory objects, create the import spec, then
`upload.checkSpec`. -/
def upload (r : Remote) : List Call × Outcome :=
  match r.Datacenter with
  | some err => ([Call.Datacenter], .returned none (some err))
  | none =>
    match r.Datastore with
    | some err => ([Call.Datacenter, Call.Datastore], .returned none (some err))
    | none =>
      match r.Folder with
      | some err => ([Call.Datacenter, Call.Datastore, Call.Folder], .returned none (some err))
      | none =>
        match r.ResourcePool with
        | some err =>
          ([Call.Datacenter, Call.Datastore, Call.Folder, Call.ResourcePool],
            .returned none (some err))
        | none =>
          match r.CreateImportSpec with
          | .error err =>
            ([Call.Datacenter, Call.Datastore, Call.Folder, Call.ResourcePool,
                Call.CreateImportSpec],
              .returned none (some err))
          | .ok spec =>
            ([Call.Datacenter, Call.Datastore, Call.Folder, Call.ResourcePool,
                Call.CreateImportSpec] ++ (upload.checkSpec r spec).1,
              (upload.checkSpec r spec).2)

/-- The package-level map `builtins`. -/
def builtins : List (String × String) :=
  [("mitchellh.virtualbox", "virtualbox"), ("mitchellh.vmware", "vmware"),
    ("mitchellh.vmware-esx", "vmware")]

/-- The function `strings.HasSuffix`. -/
def HasSuffix (s suffix : String) : Bool := suffix.data.isSuffixOf s.data

/-- A `packer.Artifact`, as far as `PostProcess` reads it. -/
structure Artifact where
  BuilderId : String
  Files : List String
  deriving DecidableEq, Repr

/-- The loop of `PostProcess` over `artifact.Files()`, entered with the current value of
`vmdkPath`: the values of `ovfPath` and `vmdkPath` when it ends. -/
def PostProcess.scan : List String → String → String × String
  | [], vmdkPath => ("", vmdkPath)
  | path :: rest, vmdkPath =>
    if HasSuffix path ".ovf" then (path, vmdkPath)
    else if HasSuffix path ".vmdk" then PostProcess.scan rest path
    else PostProcess.scan rest vmdkPath

/-- What `PostProcess` returns, and the paths `HandleOVF` was called with. -/
structure PostProcessResult where
  handled : List String
  artifact : Option Artifact
  keep : Bool
  err : Option GoError
  deriving DecidableEq, Repr

/-- The method `PostProcess`; `HandleOVF` gives the error returned by
`p.config.HandleOVF(ui, ovfPath)`. -/
def PostProcess (HandleOVF : String → Option GoError) (artifact : Artifact) : PostProcessResult :=
  if (builtins.lookup artifact.BuilderId).isNone then
    ⟨[], none, false, some ("Unknown artifact type, can't build box: " ++ artifact.BuilderId)⟩
  else
    let found := PostProcess.scan artifact.Files ""
    if found.1 = "" ∨ found.2 = "" then
      ⟨[], none, false, some "ERROR: OVF/VMDK were found"⟩
    else
      match HandleOVF found.1 with
      | some err => ⟨[found.1], none, false, some err⟩
      | none => ⟨[found.1], some artifact, false, none⟩

/-! ## Auxiliary definitions for the statements -/

/-- An item of 200 bytes. -/
def item200 : uploadItem := ⟨"https://esx/nfc/disk-0.vmdk", ⟨"disk-0", "disk-0.vmdk", 200, false⟩⟩

/-- An item of `2 ^ 25 - 1` bytes, a size that `float32` does not represent. -/
def item32M : uploadItem :=
  ⟨"https://esx/nfc/disk-1.vmdk", ⟨"disk-1", "disk-1.vmdk", 33554431, false⟩⟩

/-- An item of 100 bytes. -/
def item100 : uploadItem := ⟨"https://esx/nfc/disk-2.vmdk", ⟨"disk-2", "disk-2.vmdk", 100, false⟩⟩

/-- The `select` branches taken by a watcher that receives non-error reports with the
given percentages, in order. -/
def reportEvents (ps : List F32) : List Select :=
  ps.map (fun pct => Select.recv (.value ⟨pct, false⟩))

/-- The shared counter after the given deltas have been added by `atomic.AddInt64`. -/
def addAll (pos : ℤ) (deltas : List ℤ) : ℤ := deltas.foldl addInt64 pos

/-- The byte approximation at the last percentage of a list, 0 for the empty list: the
local `pos` of a watcher that has received these percentages. -/
def lastApprox (total : ℤ) (ps : List F32) : ℤ := (ps.map (approxBytes total)).getLastD 0

/-- The bytes a watcher has added to the shared counter so far: its whole `total` once it
has seen the channel closed, its local `pos` otherwise. -/
def Reporter.credit (w : Reporter) : ℤ := if w.status = .closed then w.total else w.pos

/-- The sizes of the items, in order. -/
def sizes (items : List uploadItem) : List ℤ := items.map (fun item => item.item.Size)

/-- What a reachable state keeps from the start: the `total`, the sizes seen by the
watchers, the shared counter as the wrapped sum of the credits, and the WaitGroup counter
as the number of heartbeat goroutines still running. -/
structure Reachable (items : List uploadItem) (p : UploaderProgress) : Prop where
  total_eq : p.total = (NewUploaderProgress items).total
  totals_eq : p.reporters.map Reporter.total = sizes items
  pos_eq : p.pos = wrap64 ((p.reporters.map Reporter.credit).sum)
  wg_eq : p.wg = if p.running then 1 else 0
  waited_imp : p.waited = true → p.wg = 0
  done_of_waited : p.waited = true → p.done = true

/-- A schedule over `n` items in which nothing stops early: every step is a heartbeat tick
or a receive on the channel of one of the items, and the receives of each item form a
stream of non-error reports ended by the close of the channel. -/
def normalSchedule (n : ℕ) (sched : List Step) : Bool :=
  sched.all (fun a =>
    match a with
    | .tick => true
    | .recv i _ => decide (i < n)
    | _ => false)
  && (List.range n).all (fun i => normalStream (recvsOf i sched))

/-- The three items of 100, 200 and 700 bytes. -/
def items3 : List uploadItem :=
  [⟨"https://esx/nfc/disk-0.vmdk", ⟨"disk-0", "disk-0.vmdk", 100, false⟩⟩,
    ⟨"https://esx/nfc/disk-1.vmdk", ⟨"disk-1", "disk-1.vmdk", 200, false⟩⟩,
    ⟨"https://esx/nfc/cdrom.iso", ⟨"cdrom", "cdrom.iso", 700, true⟩⟩]

/-- An interleaving of the streams 50%, close; 25%, 75%, close; close of three items,
with two heartbeat ticks. -/
def sched3 : List Step :=
  [.recv 0 (.value ⟨.fin 50, false⟩), .recv 1 (.value ⟨.fin 25, false⟩), .tick,
    .recv 2 .closed, .recv 1 (.value ⟨.fin 75, false⟩), .recv 0 .closed, .tick,
    .recv 1 .closed]

/-- A step that does not deliver a non-error report with a percentage outside 0..100. -/
def Step.inRange : Step → Prop
  | .recv _ (.value progress) => progress.isError = true ∨ progress.Percentage.isPercent
  | _ => True

instance (a : Step) : Decidable a.inRange := by
  rcases a with ⟨_, _ | _⟩ | _ | _ | _ | _ | _ <;> unfold Step.inRange <;> infer_instance

/-- The calls `upload` makes up to and including `CreateImportSpec`. -/
def upload.resolved : List Call :=
  [Call.Datacenter, Call.Datastore, Call.Folder, Call.ResourcePool, Call.CreateImportSpec]

/-- The transport calls for the items at positions `0 .. k`, in list order. -/
def transportCalls (items : List uploadItem) (k : ℕ) : List Call :=
  ((items.take (k + 1)).enum).map (fun x => Call.uploadItem x.1 x.2)

/-- An import spec with one warning and no hard error, for three files on three
devices. -/
def spec3 : OvfCreateImportSpecResult :=
  ⟨[⟨"disk-0", "disk-0.vmdk", 100, false⟩, ⟨"disk-1", "disk-1.vmdk", 200, false⟩,
      ⟨"cdrom", "cdrom.iso", 700, true⟩],
    some [⟨"unsupported hardware family virtualbox-2.2"⟩], none⟩

/-- A lease with one URL per device of `spec3`. -/
def info3 : HttpNfcLeaseInfo :=
  ⟨"vm-42", [⟨"disk-0", "https://esx/nfc/disk-0.vmdk"⟩, ⟨"disk-1", "https://esx/nfc/disk-1.vmdk"⟩,
    ⟨"cdrom", "https://esx/nfc/cdrom.iso"⟩]⟩

/-- Collaborators that all succeed, except that the transport of the second item fails. -/
def remoteFailingSecond : Remote where
  Datacenter := none
  Datastore := none
  Folder := none
  ResourcePool := none
  CreateImportSpec := .ok spec3
  ImportVApp := none
  Wait := .ok info3
  ParseURL := fun url => .ok url
  uploadItem := fun k _ => if k = 1 then some "unexpected EOF" else none
  HttpNfcLeaseComplete := none

/-- Collaborators whose `CreateImportSpec` reports the given result; all other calls
succeed. -/
def remoteWithSpec (spec : OvfCreateImportSpecResult) : Remote where
  Datacenter := none
  Datastore := none
  Folder := none
  ResourcePool := none
  CreateImportSpec := .ok spec
  ImportVApp := none
  Wait := .ok info3
  ParseURL := fun url => .ok url
  uploadItem := fun _ _ => none
  HttpNfcLeaseComplete := none

/-- An import spec with two hard errors. -/
def specTwoErrors : OvfCreateImportSpecResult :=
  ⟨[], none, some [⟨"E1"⟩, ⟨"E2"⟩]⟩

/-- The condition under which `PostProcess` hands `ovf` to `HandleOVF`: `ovf` is the
first path of the file list that ends in ".ovf", and a path that ends in ".vmdk" is
listed before it. -/
def vmdkBeforeFirstOvf (files : List String) (ovf : String) : Prop :=
  ∃ pre post, files = pre ++ ovf :: post ∧ HasSuffix ovf ".ovf" = true ∧
    (∀ x ∈ pre, HasSuffix x ".ovf" = false) ∧ ∃ v ∈ pre, HasSuffix v ".vmdk" = true

/-- An item whose declared size is 0. -/
def item0 : uploadItem := ⟨"https://esx/nfc/empty.nvram", ⟨"nvram", "empty.nvram", 0, true⟩⟩

/-- An item of `2 ^ 24 + 1` bytes, a size that `float32` rounds down. -/
def item16M : uploadItem :=
  ⟨"https://esx/nfc/disk-3.vmdk", ⟨"disk-3", "disk-3.vmdk", 16777217, false⟩⟩

/-- An item of `2 ^ 62` bytes. -/
def itemHuge : uploadItem :=
  ⟨"https://esx/nfc/disk-4.vmdk", ⟨"disk-4", "disk-4.vmdk", 4611686018427387904, false⟩⟩

/-! # Theorems -/

/-! ## Rounding to binary32 -/

theorem roundHalfEven_cases (v : ℚ) :
    roundHalfEven v = ⌊v⌋ ∧ v - ⌊v⌋ ≤ 1 / 2 ∨ roundHalfEven v = ⌊v⌋ + 1 ∧ 1 / 2 ≤ v - ⌊v⌋ := by
  unfold roundHalfEven
  simp only
  split_ifs with h1 h2 h3
  · exact Or.inl ⟨rfl, h1.le⟩
  · exact Or.inr ⟨rfl, h2.le⟩
  · exact Or.inl ⟨rfl, not_lt.mp h2⟩
  · exact Or.inr ⟨rfl, not_lt.mp h1⟩

theorem roundHalfEven_intCast (n : ℤ) : roundHalfEven (n : ℚ) = n := by
  unfold roundHalfEven
  simp

theorem abs_roundHalfEven_sub_le (v : ℚ) : |(roundHalfEven v : ℚ) - v| ≤ 1 / 2 := by
  have h1 := Int.floor_le v
  have h2 := Int.lt_floor_add_one v
  rw [abs_le]
  rcases roundHalfEven_cases v with ⟨h, h3⟩ | ⟨h, h3⟩
  · rw [h]; constructor <;> linarith
  · rw [h]; push_cast; constructor <;> linarith

theorem roundHalfEven_mono {a b : ℚ} (hab : a ≤ b) : roundHalfEven a ≤ roundHalfEven b := by
  by_cases hfl : ⌊a⌋ = ⌊b⌋
  · -- same unit interval: compare the fractional parts
    unfold roundHalfEven
    simp only
    rw [hfl]
    have hr : a - (⌊b⌋ : ℚ) ≤ b - (⌊b⌋ : ℚ) := by linarith
    split_ifs <;> first | omega | (exfalso; linarith)
  · have hlt : ⌊a⌋ < ⌊b⌋ := lt_of_le_of_ne (Int.floor_le_floor hab) hfl
    have ha : roundHalfEven a ≤ ⌊a⌋ + 1 := by
      rcases roundHalfEven_cases a with ⟨h, _⟩ | ⟨h, _⟩ <;> omega
    have hb : ⌊b⌋ ≤ roundHalfEven b := by
      rcases roundHalfEven_cases b with ⟨h, _⟩ | ⟨h, _⟩ <;> omega
    omega

theorem roundHalfEven_le_of_le {v : ℚ} {n : ℤ} (h : v ≤ n) : roundHalfEven v ≤ n := by
  have := roundHalfEven_mono h
  rwa [roundHalfEven_intCast] at this

theorem le_roundHalfEven_of_le {v : ℚ} {n : ℤ} (h : (n : ℚ) ≤ v) : n ≤ roundHalfEven v := by
  have := roundHalfEven_mono h
  rwa [roundHalfEven_intCast] at this

theorem two_zpow_pos (e : ℤ) : (0 : ℚ) < 2 ^ e := zpow_pos (by norm_num) e

theorem roundF32_zero : roundF32 0 = 0 := by
  unfold roundF32
  rw [zero_div]
  have : roundHalfEven 0 = 0 := by simpa using roundHalfEven_intCast 0
  rw [this]; simp

theorem roundF32_nonneg {q : ℚ} (hq : 0 ≤ q) : 0 ≤ roundF32 q := by
  unfold roundF32
  have h : (0 : ℚ) ≤ q / 2 ^ ulpExp q := div_nonneg hq (two_zpow_pos _).le
  have h2 : (0 : ℤ) ≤ roundHalfEven (q / 2 ^ ulpExp q) := le_roundHalfEven_of_le (by simpa using h)
  have h3 : (0 : ℚ) ≤ (roundHalfEven (q / 2 ^ ulpExp q) : ℚ) := by exact_mod_cast h2
  exact mul_nonneg h3 (two_zpow_pos _).le

/-- The binade of a positive rational. -/
theorem zpow_log_le {q : ℚ} (hq : 0 < q) : (2 : ℚ) ^ Int.log 2 q ≤ q :=
  Int.zpow_log_le_self (by norm_num) hq

theorem lt_zpow_log_succ (q : ℚ) : q < (2 : ℚ) ^ (Int.log 2 q + 1) :=
  Int.lt_zpow_succ_log_self (by norm_num) q

theorem ulpExp_mono {a b : ℚ} (ha : 0 < a) (hab : a ≤ b) : ulpExp a ≤ ulpExp b := by
  unfold ulpExp
  have hb : 0 < b := lt_of_lt_of_le ha hab
  rw [abs_of_pos ha, abs_of_pos hb]
  have := Int.log_mono_right (b := 2) ha hab
  omega

/-- Upper end of the binade is a multiple of the quantum, so rounding stays below it. -/
theorem roundF32_le_binade {q : ℚ} (hq : 0 < q) : roundF32 q ≤ 2 ^ (ulpExp q + 24) := by
  unfold roundF32
  have hu : (0 : ℚ) < 2 ^ ulpExp q := two_zpow_pos _
  have h1 : q < 2 ^ (ulpExp q + 24) := by
    refine lt_of_lt_of_le (lt_zpow_log_succ q) ?_
    apply zpow_le_zpow_right₀ (by norm_num)
    unfold ulpExp
    rw [abs_of_pos hq]
    omega
  have h2 : q / 2 ^ ulpExp q ≤ ((2 ^ 24 : ℤ) : ℚ) := by
    rw [div_le_iff₀ hu]
    have : (2 : ℚ) ^ (ulpExp q + 24) = ((2 ^ 24 : ℤ) : ℚ) * 2 ^ ulpExp q := by
      rw [zpow_add₀ (by norm_num)]; push_cast; ring
    linarith
  have h3 := roundHalfEven_le_of_le h2
  have h4 : (roundHalfEven (q / 2 ^ ulpExp q) : ℚ) ≤ ((2 ^ 24 : ℤ) : ℚ) := by exact_mod_cast h3
  calc (roundHalfEven (q / 2 ^ ulpExp q) : ℚ) * 2 ^ ulpExp q
      ≤ ((2 ^ 24 : ℤ) : ℚ) * 2 ^ ulpExp q := mul_le_mul_of_nonneg_right h4 hu.le
    _ = 2 ^ (ulpExp q + 24) := by rw [zpow_add₀ (by norm_num)]; push_cast; ring

/-- Lower end of a normal binade is a multiple of the quantum. -/
theorem le_roundF32_binade {q : ℚ} (hq : 0 < q) (hn : -126 ≤ Int.log 2 q) :
    (2 : ℚ) ^ (ulpExp q + 23) ≤ roundF32 q := by
  unfold roundF32
  have hu : (0 : ℚ) < 2 ^ ulpExp q := two_zpow_pos _
  have he : ulpExp q + 23 = Int.log 2 q := by
    unfold ulpExp; rw [abs_of_pos hq]; omega
  have h1 : (2 : ℚ) ^ (ulpExp q + 23) ≤ q := by rw [he]; exact zpow_log_le hq
  have hsplit : (2 : ℚ) ^ (ulpExp q + 23) = ((2 ^ 23 : ℤ) : ℚ) * 2 ^ ulpExp q := by
    rw [zpow_add₀ (by norm_num)]; push_cast; ring
  have h2 : ((2 ^ 23 : ℤ) : ℚ) ≤ q / 2 ^ ulpExp q := by
    rw [le_div_iff₀ hu]; linarith
  have h3 := le_roundHalfEven_of_le h2
  have h4 : ((2 ^ 23 : ℤ) : ℚ) ≤ (roundHalfEven (q / 2 ^ ulpExp q) : ℚ) := by exact_mod_cast h3
  rw [hsplit]
  exact mul_le_mul_of_nonneg_right h4 hu.le

theorem roundF32_mono {a b : ℚ} (ha : 0 ≤ a) (hab : a ≤ b) : roundF32 a ≤ roundF32 b := by
  rcases eq_or_lt_of_le ha with h0 | hpos
  · rw [← h0, roundF32_zero]; exact roundF32_nonneg (ha.trans hab)
  have hb : 0 < b := lt_of_lt_of_le hpos hab
  rcases eq_or_lt_of_le (ulpExp_mono hpos hab) with he | hlt
  · unfold roundF32
    rw [he]
    have hu : (0 : ℚ) < 2 ^ ulpExp b := two_zpow_pos _
    have h1 : a / 2 ^ ulpExp b ≤ b / 2 ^ ulpExp b := div_le_div_of_nonneg_right hab hu.le
    have h2 := roundHalfEven_mono h1
    have h3 : (roundHalfEven (a / 2 ^ ulpExp b) : ℚ) ≤ (roundHalfEven (b / 2 ^ ulpExp b) : ℚ) := by
      exact_mod_cast h2
    exact mul_le_mul_of_nonneg_right h3 hu.le
  · have hn : -126 ≤ Int.log 2 b := by
      by_contra hcon
      have h1 : ulpExp b = -149 := by unfold ulpExp; rw [abs_of_pos hb]; omega
      have h2 : -149 ≤ ulpExp a := by unfold ulpExp; omega
      omega
    calc roundF32 a ≤ 2 ^ (ulpExp a + 24) := roundF32_le_binade hpos
      _ ≤ 2 ^ (ulpExp b + 23) := zpow_le_zpow_right₀ (by norm_num) (by omega)
      _ ≤ roundF32 b := le_roundF32_binade hb hn

theorem abs_roundF32_sub_le (q : ℚ) : |roundF32 q - q| ≤ 2 ^ ulpExp q / 2 := by
  unfold roundF32
  have hu : (0 : ℚ) < 2 ^ ulpExp q := two_zpow_pos _
  have h := abs_roundHalfEven_sub_le (q / 2 ^ ulpExp q)
  have e : (roundHalfEven (q / 2 ^ ulpExp q) : ℚ) * 2 ^ ulpExp q - q
      = ((roundHalfEven (q / 2 ^ ulpExp q) : ℚ) - q / 2 ^ ulpExp q) * 2 ^ ulpExp q := by
    field_simp
  rw [e, abs_mul, abs_of_pos hu]
  calc _ ≤ 1 / 2 * 2 ^ ulpExp q := mul_le_mul_of_nonneg_right h hu.le
    _ = _ := by ring

/-- A rational whose scaled significand is already an integer is a fixed point. -/
theorem roundF32_of_scaled_int {q : ℚ} {n : ℤ} (h : q / 2 ^ ulpExp q = n) : roundF32 q = q := by
  unfold roundF32
  rw [h, roundHalfEven_intCast, ← h]
  field_simp

theorem roundF32_intCast {n : ℤ} (h : |n| < 2 ^ 24) : roundF32 (n : ℚ) = n := by
  rcases eq_or_ne n 0 with rfl | hn0
  · simpa using roundF32_zero
  have habs : (0 : ℚ) < |(n : ℚ)| := abs_pos.mpr (by exact_mod_cast hn0)
  have hlog : Int.log 2 |(n : ℚ)| < 24 := by
    rw [← Int.lt_zpow_iff_log_lt (by norm_num) habs]
    have : |(n : ℚ)| = ((|n| : ℤ) : ℚ) := by push_cast; rfl
    rw [this]
    have h2 : ((|n| : ℤ) : ℚ) < ((2 ^ 24 : ℤ) : ℚ) := by exact_mod_cast h
    norm_num at h2 ⊢
    exact h2
  have hlog0 : 0 ≤ Int.log 2 |(n : ℚ)| := by
    rw [← Int.zpow_le_iff_le_log (by norm_num) habs]
    have h1 : (1 : ℤ) ≤ |n| := Int.one_le_abs hn0
    have : |(n : ℚ)| = ((|n| : ℤ) : ℚ) := by push_cast; rfl
    rw [this]
    simpa using (by exact_mod_cast h1 : ((1 : ℤ) : ℚ) ≤ ((|n| : ℤ) : ℚ))
  have hue : ulpExp (n : ℚ) ≤ 0 := by unfold ulpExp; omega
  obtain ⟨k, hk⟩ : ∃ k : ℕ, ulpExp (n : ℚ) = -(k : ℤ) := ⟨(-ulpExp (n : ℚ)).toNat, by omega⟩
  apply roundF32_of_scaled_int (n := n * 2 ^ k)
  rw [hk, zpow_neg, zpow_natCast]
  push_cast
  field_simp

theorem roundHalfEven_of_lt {v : ℚ} {n : ℤ} (h1 : (n : ℚ) ≤ v) (h2 : v < n + 1 / 2) :
    roundHalfEven v = n := by
  have hf : ⌊v⌋ = n := by rw [Int.floor_eq_iff]; constructor <;> linarith
  unfold roundHalfEven
  simp only [hf]
  rw [if_pos (by linarith)]

theorem roundHalfEven_of_gt {v : ℚ} {n : ℤ} (h1 : (n : ℚ) + 1 / 2 < v) (h2 : v < n + 1) :
    roundHalfEven v = n + 1 := by
  have hf : ⌊v⌋ = n := by rw [Int.floor_eq_iff]; constructor <;> linarith
  unfold roundHalfEven
  simp only [hf]
  rw [if_neg (by linarith), if_pos (by linarith)]

theorem roundHalfEven_tie_odd {v : ℚ} {n : ℤ} (h1 : v = n + 1 / 2) (h2 : n % 2 = 1) :
    roundHalfEven v = n + 1 := by
  have hf : ⌊v⌋ = n := by rw [Int.floor_eq_iff]; constructor <;> linarith
  unfold roundHalfEven
  simp only [hf]
  rw [if_neg (by linarith), if_neg (by linarith), if_neg (by omega)]

theorem roundHalfEven_tie_even {v : ℚ} {n : ℤ} (h1 : v = n + 1 / 2) (h2 : n % 2 = 0) :
    roundHalfEven v = n := by
  have hf : ⌊v⌋ = n := by rw [Int.floor_eq_iff]; constructor <;> linarith
  unfold roundHalfEven
  simp only [hf]
  rw [if_neg (by linarith), if_neg (by linarith), if_pos h2]

/-- Evaluation of `ulpExp` from the binade of the argument. -/
theorem ulpExp_eq {q : ℚ} (e : ℤ) (he : -126 ≤ e) (h1 : (2 : ℚ) ^ e ≤ |q|)
    (h2 : |q| < (2 : ℚ) ^ (e + 1)) : ulpExp q = e - 23 := by
  have hpos : 0 < |q| := lt_of_lt_of_le (two_zpow_pos e) h1
  have ha : e ≤ Int.log 2 |q| := (Int.zpow_le_iff_le_log (by norm_num) hpos).mp h1
  have hb : Int.log 2 |q| < e + 1 := (Int.lt_zpow_iff_log_lt (by norm_num) hpos).mp h2
  unfold ulpExp
  omega

/-- Evaluation of `roundF32` from the binade of the argument. -/
theorem roundF32_eq {q : ℚ} (e : ℤ) (he : -126 ≤ e) (h1 : (2 : ℚ) ^ e ≤ |q|)
    (h2 : |q| < (2 : ℚ) ^ (e + 1)) :
    roundF32 q = (roundHalfEven (q / 2 ^ (e - 23)) : ℚ) * 2 ^ (e - 23) := by
  unfold roundF32
  rw [ulpExp_eq e he h1 h2]

/-! ## The byte approximation of `waitForProgress` -/

theorem F32.div_fin_fin (a b : ℚ) : F32.div (.fin a) (.fin b)
    = if b = 0 then (if a = 0 then .nan else .inf (decide (a < 0))) else F32.ofRat (a / b) := rfl

theorem F32.mul_fin_fin (a b : ℚ) : F32.mul (.fin a) (.fin b) = F32.ofRat (a * b) := rfl

theorem F32.toInt64_fin (q : ℚ) : F32.toInt64 (.fin q)
    = if -9223372036854775808 ≤ truncQ q ∧ truncQ q < 9223372036854775808 then truncQ q
      else -9223372036854775808 := rfl

theorem F32.toInt32_fin (q : ℚ) : F32.toInt32 (.fin q)
    = if -2147483648 ≤ truncQ q ∧ truncQ q < 2147483648 then truncQ q else -2147483648 := rfl

theorem wrap64_of_isInt64 {z : ℤ} (h : isInt64 z) : wrap64 z = z := by
  unfold isInt64 at h
  unfold wrap64
  omega

theorem isInt64_wrap64 (z : ℤ) : isInt64 (wrap64 z) := by
  unfold isInt64 wrap64
  omega

theorem wrap64_add_wrap64_left (a b : ℤ) : wrap64 (wrap64 a + b) = wrap64 (a + b) := by
  unfold wrap64
  omega

theorem wrap64_add_wrap64_right (a b : ℤ) : wrap64 (a + wrap64 b) = wrap64 (a + b) := by
  unfold wrap64
  omega

theorem wrap64_sub_wrap64_right (a b : ℤ) : wrap64 (a - wrap64 b) = wrap64 (a - b) := by
  unfold wrap64
  omega

theorem roundF32_one : roundF32 1 = 1 := by
  have := roundF32_intCast (n := 1) (by norm_num)
  simpa using this

theorem F32.ofRat_of_lt {q : ℚ} (h : |roundF32 q| < 2 ^ 128) : F32.ofRat q = .fin (roundF32 q) := by
  unfold F32.ofRat
  simp only
  rw [if_neg (not_le.mpr h)]

theorem F32.ofRat_of_nonneg_le {q b : ℚ} (hq : 0 ≤ q) (hb : q ≤ b) (hrep : roundF32 b = b)
    (hb128 : b < 2 ^ 128) : F32.ofRat q = .fin (roundF32 q) := by
  apply F32.ofRat_of_lt
  have h1 := roundF32_nonneg hq
  have h2 := roundF32_mono hq hb
  rw [abs_of_nonneg h1]
  linarith

theorem truncQ_of_nonneg {q : ℚ} (h : 0 ≤ q) : truncQ q = ⌊q⌋ := by
  unfold truncQ
  rw [if_pos h]

/-- The scaled fraction `float32(p) / 100.0` of a percentage between 0 and 100. -/
theorem F32.div_hundred {q : ℚ} (h0 : 0 ≤ q) (h100 : q ≤ 100) :
    F32.div (.fin q) (.fin 100) = .fin (roundF32 (q / 100)) ∧
      0 ≤ roundF32 (q / 100) ∧ roundF32 (q / 100) ≤ 1 := by
  have hq0 : (0 : ℚ) ≤ q / 100 := div_nonneg h0 (by norm_num)
  have hq1 : q / 100 ≤ 1 := by rw [div_le_one (by norm_num)]; exact h100
  have hle : roundF32 (q / 100) ≤ 1 := by
    have := roundF32_mono hq0 hq1
    rwa [roundF32_one] at this
  refine ⟨?_, roundF32_nonneg hq0, hle⟩
  rw [F32.div_fin_fin, if_neg (by norm_num)]
  exact F32.ofRat_of_nonneg_le hq0 hq1 roundF32_one (by norm_num)

theorem waitForProgress_nil (w : Reporter) : waitForProgress w [] = (w, []) := rfl

theorem waitForProgress_cons_running {w : Reporter} (h : w.status = .running) (c : Select)
    (cs : List Select) :
    waitForProgress w (c :: cs)
      = ((waitForProgress (w.select c).1 cs).1,
          (w.select c).2.toList ++ (waitForProgress (w.select c).1 cs).2) := by
  rw [waitForProgress, if_pos h]

theorem waitForProgress_of_returned {w : Reporter} (h : w.status ≠ .running) (cs : List Select) :
    waitForProgress w cs = (w, []) := by
  cases cs with
  | nil => rfl
  | cons c cs => rw [waitForProgress, if_neg h]

theorem Reporter.select_progress (w : Reporter) (pct : F32) :
    w.select (.recv (.value ⟨pct, false⟩))
      = ({ w with pos := approxBytes w.total pct },
          some (wrap64 (approxBytes w.total pct - w.pos))) := rfl

theorem Reporter.select_error (w : Reporter) (pct : F32) :
    w.select (.recv (.value ⟨pct, true⟩)) = ({ w with status := .failed }, none) := rfl

theorem waitForProgress_append (w : Reporter) (cs ds : List Select) :
    waitForProgress w (cs ++ ds)
      = ((waitForProgress (waitForProgress w cs).1 ds).1,
          (waitForProgress w cs).2 ++ (waitForProgress (waitForProgress w cs).1 ds).2) := by
  induction cs generalizing w with
  | nil => simp [waitForProgress_nil]
  | cons c cs ih =>
    by_cases h : w.status = .running
    · rw [List.cons_append, waitForProgress_cons_running h, waitForProgress_cons_running h, ih]
      simp
    · rw [waitForProgress_of_returned h, waitForProgress_of_returned h]
      simp [waitForProgress_of_returned h]

theorem F32.ofRat_eq {q r : ℚ} (h : roundF32 q = r) (hr : |r| < 2 ^ 128) :
    F32.ofRat q = .fin r := by
  rw [F32.ofRat_of_lt (by rw [h]; exact hr), h]

theorem roundF32_33554431 : roundF32 33554431 = 33554432 := by
  rw [roundF32_eq 24 (by norm_num) (by norm_num) (by norm_num)]
  rw [roundHalfEven_tie_odd (n := 16777215) (by norm_num) (by norm_num)]
  norm_num

theorem roundF32_33554432 : roundF32 33554432 = 33554432 := by
  rw [roundF32_eq 25 (by norm_num) (by norm_num) (by norm_num)]
  have : (33554432 : ℚ) / 2 ^ ((25 : ℤ) - 23) = ((8388608 : ℤ) : ℚ) := by norm_num
  rw [this, roundHalfEven_intCast]
  norm_num

theorem approxBytes_33554431_hundred : approxBytes 33554431 (.fin 100) = 33554432 := by
  unfold approxBytes F32.ofInt
  have h1 : F32.ofRat ((33554431 : ℤ) : ℚ) = .fin 33554432 := by
    apply F32.ofRat_eq
    · exact_mod_cast roundF32_33554431
    · norm_num
  have h2 : F32.div (.fin 100) (.fin 100) = .fin 1 := by
    rw [F32.div_fin_fin, if_neg (by norm_num), div_self (by norm_num)]
    exact F32.ofRat_eq roundF32_one (by norm_num)
  rw [h1, h2, F32.mul_fin_fin, mul_one, F32.ofRat_eq roundF32_33554432 (by norm_num),
    F32.toInt64_fin]
  have : truncQ 33554432 = 33554432 := by
    rw [truncQ_of_nonneg (by norm_num)]
    exact_mod_cast Int.floor_intCast (33554432 : ℤ)
  rw [this]
  norm_num

theorem roundF32_eq_of_pos {q : ℚ} (e : ℤ) (he : -126 ≤ e) (h1 : (2 : ℚ) ^ e ≤ q)
    (h2 : q < (2 : ℚ) ^ (e + 1)) :
    roundF32 q = (roundHalfEven (q / 2 ^ (e - 23)) : ℚ) * 2 ^ (e - 23) := by
  have hq : 0 ≤ q := (two_zpow_pos e).le.trans h1
  exact roundF32_eq e he (by rwa [abs_of_nonneg hq]) (by rwa [abs_of_nonneg hq])

theorem F32.ofRat_eq_of_nonneg {q r : ℚ} (h : roundF32 q = r) (h0 : 0 ≤ r) (hr : r < 2 ^ 128) :
    F32.ofRat q = .fin r :=
  F32.ofRat_eq h (by rwa [abs_of_nonneg h0])

/-- Evaluation of the byte approximation through its three rounding steps. -/
theorem approxBytes_eval {total x : ℤ} {p r y : ℚ} (hT : roundF32 (total : ℚ) = total)
    (hT0 : (0 : ℚ) ≤ total) (hT128 : (total : ℚ) < 2 ^ 128) (hp : roundF32 (p / 100) = r)
    (hr0 : 0 ≤ r) (hr : r < 2 ^ 128) (hy : roundF32 ((total : ℚ) * r) = y) (hy0 : 0 ≤ y)
    (hy128 : y < 2 ^ 128) (hx : ⌊y⌋ = x) (hx64 : isInt64 x) :
    approxBytes total (.fin p) = x := by
  unfold approxBytes F32.ofInt
  rw [F32.ofRat_eq_of_nonneg hT hT0 hT128, F32.div_fin_fin, if_neg (by norm_num),
    F32.ofRat_eq_of_nonneg hp hr0 hr, F32.mul_fin_fin, F32.ofRat_eq_of_nonneg hy hy0 hy128,
    F32.toInt64_fin, truncQ_of_nonneg hy0, hx]
  unfold isInt64 at hx64
  rw [if_pos hx64]

theorem approxBytes_100_53 : approxBytes 100 (.fin 53) = 52 := by
  have hp : roundF32 ((53 : ℚ) / 100) = 2222981 / 4194304 := by
    rw [roundF32_eq_of_pos (-1) (by norm_num) (by norm_num) (by norm_num)]
    rw [roundHalfEven_of_lt (n := 8891924) (by norm_num) (by norm_num)]
    norm_num
  have hy : roundF32 (((100 : ℤ) : ℚ) * (2222981 / 4194304)) = 13893631 / 262144 := by
    rw [roundF32_eq_of_pos 5 (by norm_num) (by norm_num) (by norm_num)]
    rw [roundHalfEven_of_lt (n := 13893631) (by norm_num) (by norm_num)]
    norm_num
  have hx : ⌊(13893631 / 262144 : ℚ)⌋ = 52 := by
    rw [Int.floor_eq_iff]
    constructor <;> norm_num
  exact approxBytes_eval (roundF32_intCast (n := 100) (by decide)) (by norm_num) (by norm_num)
    hp (by norm_num) (by norm_num) hy (by norm_num) (by norm_num) hx (by unfold isInt64; decide)

theorem approxBytes_200_40 : approxBytes 200 (.fin 40) = 80 := by
  have hp : roundF32 ((40 : ℚ) / 100) = 13421773 / 33554432 := by
    rw [roundF32_eq_of_pos (-2) (by norm_num) (by norm_num) (by norm_num)]
    rw [roundHalfEven_of_gt (n := 13421772) (by norm_num) (by norm_num)]
    norm_num
  have hy : roundF32 (((200 : ℤ) : ℚ) * (13421773 / 33554432)) = 80 := by
    rw [roundF32_eq_of_pos 6 (by norm_num) (by norm_num) (by norm_num)]
    rw [roundHalfEven_of_lt (n := 10485760) (by norm_num) (by norm_num)]
    norm_num
  have hx : ⌊(80 : ℚ)⌋ = 80 := by
    exact_mod_cast Int.floor_intCast (80 : ℤ)
  exact approxBytes_eval (roundF32_intCast (n := 200) (by decide)) (by norm_num) (by norm_num)
    hp (by norm_num) (by norm_num) hy (by norm_num) (by norm_num) hx (by unfold isInt64; decide)

theorem addAll_nil (pos : ℤ) : addAll pos [] = pos := rfl

theorem addAll_cons (pos d : ℤ) (ds : List ℤ) : addAll pos (d :: ds) = addAll (addInt64 pos d) ds :=
  rfl

theorem addAll_append (pos : ℤ) (ds es : List ℤ) :
    addAll pos (ds ++ es) = addAll (addAll pos ds) es := by
  unfold addAll
  rw [List.foldl_append]

/-- The deltas of a run of non-error reports telescope in the shared counter, up to the
`int64` wrap. -/
theorem waitForProgress_reportEvents (total : ℤ) :
    ∀ (ps : List F32) (pos shared : ℤ), isInt64 shared →
      (waitForProgress ⟨total, pos, .running⟩ (reportEvents ps)).1
          = ⟨total, (ps.map (approxBytes total)).getLastD pos, .running⟩ ∧
        addAll shared (waitForProgress ⟨total, pos, .running⟩ (reportEvents ps)).2
          = wrap64 (shared + (ps.map (approxBytes total)).getLastD pos - pos) := by
  intro ps
  induction ps with
  | nil =>
    intro pos shared hs
    refine ⟨rfl, ?_⟩
    show shared = wrap64 (shared + pos - pos)
    rw [add_sub_cancel_right, wrap64_of_isInt64 hs]
  | cons a rest ih =>
    intro pos shared hs
    have hstep : waitForProgress ⟨total, pos, .running⟩ (reportEvents (a :: rest))
        = ((waitForProgress ⟨total, approxBytes total a, .running⟩ (reportEvents rest)).1,
            wrap64 (approxBytes total a - pos)
              :: (waitForProgress ⟨total, approxBytes total a, .running⟩
                (reportEvents rest)).2) := by
      show waitForProgress _ (Select.recv (.value ⟨a, false⟩) :: reportEvents rest) = _
      rw [waitForProgress_cons_running rfl, Reporter.select_progress]
      rfl
    obtain ⟨ih1, ih2⟩ := ih (approxBytes total a)
      (addInt64 shared (wrap64 (approxBytes total a - pos))) (isInt64_wrap64 _)
    rw [hstep, List.map_cons, List.getLastD_cons]
    refine ⟨ih1, ?_⟩
    rw [addAll_cons, ih2]
    unfold addInt64 wrap64
    omega

/-- C3 (amended): for every item, every sequence of non-error progress events (any
percentages) followed by an error event, and whatever is delivered afterwards,
`waitForProgress` returns at the error event; the deltas it has added are exactly those
of the events before the error, no residual and nothing at or after the error event; and
they move the shared counter by the byte approximation
`int64(float32(total) * (p_last / 100))` computed in `float32` arithmetic at the last
non-error percentage (0 if there is none). -/
theorem waitForProgress_error_event (item : uploadItem) (ps : List F32) (e : F32)
    (rest : List Select) :
    (waitForProgress (Reporter.start item)
        (reportEvents ps ++ Select.recv (.value ⟨e, true⟩) :: rest)).1.status = .failed ∧
      (waitForProgress (Reporter.start item)
        (reportEvents ps ++ Select.recv (.value ⟨e, true⟩) :: rest)).2
        = (waitForProgress (Reporter.start item) (reportEvents ps)).2 ∧
      ∀ shared : ℤ, isInt64 shared →
        addAll shared (waitForProgress (Reporter.start item)
          (reportEvents ps ++ Select.recv (.value ⟨e, true⟩) :: rest)).2
          = wrap64 (shared + lastApprox item.item.Size ps) := by
  have hrun := waitForProgress_reportEvents item.item.Size ps 0
  have hstart : Reporter.start item = ⟨item.item.Size, 0, .running⟩ := rfl
  have h1 := (hrun 0 (by unfold isInt64; decide)).1
  have hdeltas : (waitForProgress (Reporter.start item)
        (reportEvents ps ++ Select.recv (.value ⟨e, true⟩) :: rest)).2
        = (waitForProgress (Reporter.start item) (reportEvents ps)).2 := by
    rw [waitForProgress_append, hstart, h1, waitForProgress_cons_running rfl,
      Reporter.select_error]
    simp [waitForProgress_of_returned]
  refine ⟨?_, hdeltas, ?_⟩
  · rw [waitForProgress_append, hstart, h1, waitForProgress_cons_running rfl,
      Reporter.select_error]
    simp [waitForProgress_of_returned]
  · intro shared hs
    rw [hdeltas, hstart, (hrun shared hs).2, sub_zero]
    rfl

/-- C3 (witness): an item of 200 bytes that receives 40% and then an error event
contributes exactly 80 bytes, not 200. -/
theorem waitForProgress_error_event_witness :
    (waitForProgress (Reporter.start item200)
        [Select.recv (.value ⟨.fin 40, false⟩), Select.recv (.value ⟨.fin 40, true⟩)]).1.status
        = .failed ∧
      addAll 0 (waitForProgress (Reporter.start item200)
        [Select.recv (.value ⟨.fin 40, false⟩), Select.recv (.value ⟨.fin 40, true⟩)]).2 = 80 := by
  have h := waitForProgress_error_event item200 [.fin 40] (.fin 40) []
  refine ⟨h.1, ?_⟩
  have h2 := h.2.2 0 (by unfold isInt64; decide)
  have h3 : lastApprox item200.item.Size [.fin 40] = 80 := approxBytes_200_40
  rw [h3] at h2
  exact h2

/-- C3 (counterexample): an item of 100 bytes that receives 53% and then an error event
contributes 52 bytes, while `floor(100 * 53 / 100)` is 53. -/
theorem waitForProgress_error_event_counterexample :
    addAll 0 (waitForProgress (Reporter.start item100)
        [Select.recv (.value ⟨.fin 53, false⟩), Select.recv (.value ⟨.fin 53, true⟩)]).2 = 52 ∧
      ⌊((item100.item.Size : ℚ) * 53 / 100)⌋ = 53 := by
  constructor
  · show addAll 0 (waitForProgress ⟨100, 0, .running⟩
        [Select.recv (.value ⟨.fin 53, false⟩), Select.recv (.value ⟨.fin 53, true⟩)]).2 = 52
    rw [waitForProgress_cons_running rfl, Reporter.select_progress]
    simp only [approxBytes_100_53]
    rw [waitForProgress_cons_running rfl, Reporter.select_error]
    simp [waitForProgress_of_returned, addAll, addInt64, wrap64]
  · show ⌊(((100 : ℤ) : ℚ) * 53 / 100)⌋ = 53
    have : (((100 : ℤ) : ℚ) * 53 / 100) = ((53 : ℤ) : ℚ) := by norm_num
    rw [this, Int.floor_intCast]

/-! ## Invariants of the goroutine system -/

theorem sum_map_set {α : Type} (f : α → ℤ) :
    ∀ (l : List α) (i : ℕ) (a b : α), l[i]? = some a →
      ((l.set i b).map f).sum = (l.map f).sum - f a + f b := by
  intro l
  induction l with
  | nil => intro i a b h; simp at h
  | cons x xs ih =>
    intro i a b h
    cases i with
    | zero =>
      simp only [List.getElem?_cons_zero, Option.some.injEq] at h
      subst h
      simp only [List.set_cons_zero, List.map_cons, List.sum_cons]
      ring
    | succ n =>
      simp only [List.getElem?_cons_succ] at h
      simp only [List.set_cons_succ, List.map_cons, List.sum_cons, ih n a b h]
      ring

theorem map_set_of_eq {α β : Type} (f : α → β) :
    ∀ (l : List α) (i : ℕ) (a b : α), l[i]? = some a → f b = f a →
      (l.set i b).map f = l.map f := by
  intro l
  induction l with
  | nil => intro i a b h; simp at h
  | cons x xs ih =>
    intro i a b h hf
    cases i with
    | zero =>
      simp only [List.getElem?_cons_zero, Option.some.injEq] at h
      subst h
      simp [hf]
    | succ n =>
      simp only [List.getElem?_cons_succ] at h
      simp [ih n a b h hf]

theorem Reporter.select_value (w : Reporter) (progress : Report) :
    w.select (.recv (.value progress))
      = if progress.isError then ({ w with status := .failed }, none)
        else ({ w with pos := approxBytes w.total progress.Percentage },
          some (wrap64 (approxBytes w.total progress.Percentage - w.pos))) := rfl

theorem UploaderProgress.step_recv (p : UploaderProgress) (i : ℕ) (m : Recv) :
    p.step (.recv i m) = p.watch i (.recv m) := rfl

theorem UploaderProgress.step_stop (p : UploaderProgress) (i : ℕ) :
    p.step (.stop i) = if p.done then p.watch i .done else none := rfl

theorem UploaderProgress.step_tick (p : UploaderProgress) :
    p.step .tick
      = if p.running then some { p with reported := p.reported ++ [percent p.pos p.total] }
        else none := rfl

theorem UploaderProgress.step_runStop (p : UploaderProgress) :
    p.step .runStop
      = if p.running ∧ p.done then some { p with running := false, wg := p.wg - 1 }
        else none := rfl

theorem UploaderProgress.step_closeDone (p : UploaderProgress) :
    p.step .closeDone = if p.done then none else some { p with done := true } := rfl

theorem UploaderProgress.step_waitReturn (p : UploaderProgress) :
    p.step .waitReturn
      = if p.done ∧ p.wg = 0 ∧ ¬ p.waited then some { p with waited := true } else none := rfl

theorem Reporter.select_total (w : Reporter) (c : Select) : (w.select c).1.total = w.total := by
  rcases c with _ | ⟨⟨progress⟩ | _⟩
  · rfl
  · rw [Reporter.select_value]
    split_ifs <;> rfl
  · rfl

/-- Every branch of the loop keeps the shared counter equal, up to the `int64` wrap, to
the sum of what the watchers have credited. -/
theorem Reporter.select_credit (w : Reporter) (c : Select) (hw : w.status = .running)
    (pos S : ℤ) (hpos : pos = wrap64 S) :
    (match (w.select c).2 with
      | some delta => addInt64 pos delta
      | none => pos) = wrap64 (S - w.credit + (w.select c).1.credit) := by
  have hc : w.credit = w.pos := by unfold Reporter.credit; rw [hw]; rfl
  rcases c with _ | ⟨⟨progress⟩ | _⟩
  · have : (w.select Select.done).1.credit = w.pos := rfl
    rw [hc, this]
    show pos = _
    rw [hpos]
    congr 1
    ring
  · rw [Reporter.select_value]
    split_ifs with he
    · show pos = wrap64 (S - w.credit + w.pos)
      rw [hc, hpos]
      congr 1
      ring
    · show addInt64 pos (wrap64 (approxBytes w.total progress.Percentage - w.pos))
        = wrap64 (S - w.credit + Reporter.credit ⟨w.total,
            approxBytes w.total progress.Percentage, w.status⟩)
      have : Reporter.credit ⟨w.total, approxBytes w.total progress.Percentage, w.status⟩
          = approxBytes w.total progress.Percentage := by
        unfold Reporter.credit; rw [hw]; rfl
      rw [this, hc, hpos]
      unfold addInt64 wrap64
      omega
  · show addInt64 pos (wrap64 (w.total - w.pos)) = wrap64 (S - w.credit + w.total)
    rw [hc, hpos]
    unfold addInt64 wrap64
    omega

theorem Reachable.init (items : List uploadItem) : Reachable items (NewUploaderProgress items) where
  total_eq := rfl
  totals_eq := by
    unfold NewUploaderProgress sizes
    simp [Reporter.start]
  pos_eq := by
    show (0 : ℤ) = wrap64 (((items.map Reporter.start).map Reporter.credit).sum)
    have : ((items.map Reporter.start).map Reporter.credit) = items.map (fun _ => (0 : ℤ)) := by
      rw [List.map_map]
      rfl
    rw [this]
    simp [wrap64]
  wg_eq := rfl
  waited_imp := by intro h; cases h
  done_of_waited := by intro h; cases h

theorem Reachable.watch {items : List uploadItem} {p q : UploaderProgress} (h : Reachable items p)
    (i : ℕ) (c : Select) (hq : p.watch i c = some q) : Reachable items q := by
  unfold UploaderProgress.watch at hq
  cases hw : p.reporters[i]? with
  | none => rw [hw] at hq; cases hq
  | some w =>
    rw [hw] at hq
    simp only at hq
    split_ifs at hq with hrun
    simp only [Option.some.injEq] at hq
    subst hq
    refine ⟨h.total_eq, ?_, ?_, h.wg_eq, h.waited_imp, h.done_of_waited⟩
    · show (p.reporters.set i (w.select c).1).map Reporter.total = sizes items
      rw [map_set_of_eq Reporter.total p.reporters i w _ hw (Reporter.select_total w c)]
      exact h.totals_eq
    · show (match (w.select c).2 with
          | some delta => addInt64 p.pos delta
          | none => p.pos)
        = wrap64 (((p.reporters.set i (w.select c).1).map Reporter.credit).sum)
      rw [sum_map_set Reporter.credit p.reporters i w _ hw]
      exact Reporter.select_credit w c hrun p.pos _ h.pos_eq

theorem Reachable.step {items : List uploadItem} {p q : UploaderProgress} (h : Reachable items p)
    (a : Step) (hq : p.step a = some q) : Reachable items q := by
  cases a with
  | recv i m => exact h.watch i _ hq
  | stop i =>
    rw [UploaderProgress.step_stop] at hq
    split_ifs at hq
    exact h.watch i _ hq
  | tick =>
    rw [UploaderProgress.step_tick] at hq
    split_ifs at hq
    simp only [Option.some.injEq] at hq
    subst hq
    exact ⟨h.total_eq, h.totals_eq, h.pos_eq, h.wg_eq, h.waited_imp, h.done_of_waited⟩
  | runStop =>
    rw [UploaderProgress.step_runStop] at hq
    split_ifs at hq with hr
    simp only [Option.some.injEq] at hq
    subst hq
    have hwg := h.wg_eq
    rw [hr.1] at hwg
    refine ⟨h.total_eq, h.totals_eq, h.pos_eq, ?_, ?_, h.done_of_waited⟩
    · show p.wg - 1 = _
      rw [hwg]
      rfl
    · intro _
      show p.wg - 1 = 0
      rw [hwg]
      rfl
  | closeDone =>
    rw [UploaderProgress.step_closeDone] at hq
    split_ifs at hq
    simp only [Option.some.injEq] at hq
    subst hq
    exact ⟨h.total_eq, h.totals_eq, h.pos_eq, h.wg_eq, h.waited_imp, fun _ => rfl⟩
  | waitReturn =>
    rw [UploaderProgress.step_waitReturn] at hq
    split_ifs at hq with hr
    simp only [Option.some.injEq] at hq
    subst hq
    exact ⟨h.total_eq, h.totals_eq, h.pos_eq, h.wg_eq, fun _ => hr.2.1, fun _ => hr.1⟩

theorem UploaderProgress.exec_cons (p : UploaderProgress) (a : Step) (rest : List Step) :
    p.exec (a :: rest) = (p.step a).bind (fun q => q.exec rest) := by
  rw [UploaderProgress.exec]
  cases p.step a <;> rfl

theorem Reachable.exec {items : List uploadItem} :
    ∀ (sched : List Step) {p q : UploaderProgress}, Reachable items p →
      p.exec sched = some q → Reachable items q := by
  intro sched
  induction sched with
  | nil =>
    intro p q h hq
    simp only [UploaderProgress.exec, Option.some.injEq] at hq
    subst hq
    exact h
  | cons a rest ih =>
    intro p q h hq
    rw [UploaderProgress.exec_cons] at hq
    cases hs : p.step a with
    | none => rw [hs] at hq; cases hq
    | some r =>
      rw [hs] at hq
      exact ih (h.step a hs) hq

theorem foldl_wrap64_add (l : List ℤ) :
    ∀ t : ℤ, l.foldl (fun t s => wrap64 (t + s)) (wrap64 t) = wrap64 (t + l.sum) := by
  induction l with
  | nil => intro t; simp
  | cons a rest ih =>
    intro t
    rw [List.foldl_cons, wrap64_add_wrap64_left, ih, List.sum_cons, add_assoc]

theorem NewUploaderProgress_total (items : List uploadItem) :
    (NewUploaderProgress items).total = wrap64 (sizes items).sum := by
  show items.foldl (fun t item => wrap64 (t + item.item.Size)) 0 = _
  have h := foldl_wrap64_add (sizes items) 0
  rw [zero_add] at h
  rw [← h]
  have h0 : wrap64 0 = 0 := by unfold wrap64; decide
  rw [h0]
  unfold sizes
  rw [List.foldl_map]

/-! ## Normal completion (C2) -/

theorem recvsOf_recv_self (i : ℕ) (m : Recv) (rest : List Step) :
    recvsOf i (Step.recv i m :: rest) = m :: recvsOf i rest := by
  rw [recvsOf, if_pos rfl]

theorem recvsOf_recv_ne {i j : ℕ} (h : j ≠ i) (m : Recv) (rest : List Step) :
    recvsOf i (Step.recv j m :: rest) = recvsOf i rest := by
  rw [recvsOf, if_neg h]

theorem recvsOf_tick (i : ℕ) (rest : List Step) : recvsOf i (Step.tick :: rest) = recvsOf i rest :=
  rfl

/-- What the remaining schedule of a normal run promises about each watcher. -/
theorem normal_exec : ∀ (sched : List Step) (p : UploaderProgress),
    p.running = true →
    (∀ a ∈ sched, a = Step.tick ∨ ∃ i m, a = Step.recv i m) →
    (∀ i, match p.reporters[i]? with
      | some w => (w.status = .running ∧ normalStream (recvsOf i sched) = true) ∨
          (w.status = .closed ∧ recvsOf i sched = [])
      | none => recvsOf i sched = []) →
    ∃ q, p.exec sched = some q ∧ ∀ w ∈ q.reporters, w.status = .closed := by
  intro sched
  induction sched with
  | nil =>
    intro p _ _ hJ
    refine ⟨p, rfl, ?_⟩
    intro w hw
    obtain ⟨i, hi⟩ := List.mem_iff_getElem?.mp hw
    have := hJ i
    rw [hi] at this
    rcases this with ⟨_, h⟩ | ⟨h, _⟩
    · simp [recvsOf, normalStream] at h
    · exact h
  | cons a rest ih =>
    intro p hrun hsteps hJ
    have hsteps' : ∀ a ∈ rest, a = Step.tick ∨ ∃ i m, a = Step.recv i m :=
      fun b hb => hsteps b (List.mem_cons_of_mem _ hb)
    rcases hsteps a (List.mem_cons_self _ _) with rfl | ⟨j, m, rfl⟩
    · -- a heartbeat tick
      rw [UploaderProgress.exec_cons, UploaderProgress.step_tick, if_pos hrun]
      exact ih _ hrun hsteps' hJ
    · -- watcher `j` receives `m`
      have hj := hJ j
      rw [recvsOf_recv_self] at hj
      cases hw : p.reporters[j]? with
      | none => rw [hw] at hj; cases hj
      | some w =>
        rw [hw] at hj
        rcases hj with ⟨hst, hns⟩ | ⟨_, h⟩
        swap
        · cases h
        have hlen : j < p.reporters.length := by
          obtain ⟨h, _⟩ := List.getElem?_eq_some_iff.mp hw
          exact h
        rw [UploaderProgress.exec_cons, UploaderProgress.step_recv]
        unfold UploaderProgress.watch
        rw [hw]
        simp only [if_pos hst, Option.bind_some]
        apply ih
        · exact hrun
        · exact hsteps'
        · intro i
          by_cases hij : j = i
          · subst hij
            show match (p.reporters.set j (w.select (.recv m)).1)[j]? with
              | some w => _
              | none => _
            rw [List.getElem?_set_self hlen]
            cases m with
            | value progress =>
              have hne : progress.isError = false ∧ normalStream (recvsOf j rest) = true := by
                simpa [normalStream] using hns
              left
              refine ⟨?_, hne.2⟩
              rw [Reporter.select_value, hne.1]
              exact hst
            | closed =>
              right
              refine ⟨rfl, ?_⟩
              cases hr : recvsOf j rest with
              | nil => rfl
              | cons b t => rw [hr] at hns; simp [normalStream] at hns
          · show match (p.reporters.set j (w.select (.recv m)).1)[i]? with
              | some w => _
              | none => _
            rw [List.getElem?_set_ne hij]
            have := hJ i
            rw [recvsOf_recv_ne hij] at this
            exact this

theorem normalSchedule_steps {n : ℕ} {sched : List Step} (h : normalSchedule n sched = true) :
    ∀ a ∈ sched, a = Step.tick ∨ ∃ i m, a = Step.recv i m ∧ i < n := by
  unfold normalSchedule at h
  rw [Bool.and_eq_true, List.all_eq_true] at h
  intro a ha
  have := h.1 a ha
  cases a with
  | tick => exact Or.inl rfl
  | recv i m => exact Or.inr ⟨i, m, rfl, by simpa using this⟩
  | stop i => simp at this
  | runStop => simp at this
  | closeDone => simp at this
  | waitReturn => simp at this

theorem recvsOf_eq_nil {n : ℕ} {i : ℕ} (hi : n ≤ i) :
    ∀ sched : List Step, (∀ a ∈ sched, a = Step.tick ∨ ∃ j m, a = Step.recv j m ∧ j < n) →
      recvsOf i sched = [] := by
  intro sched
  induction sched with
  | nil => intro _; rfl
  | cons a rest ih =>
    intro h
    have hrest := ih (fun b hb => h b (List.mem_cons_of_mem _ hb))
    rcases h a (List.mem_cons_self _ _) with rfl | ⟨j, m, rfl, hj⟩
    · rw [recvsOf_tick, hrest]
    · rw [recvsOf_recv_ne (by omega), hrest]

/-- C2: for every list of items and every interleaving of per-item streams of non-error
progress events (any percentages, any number of events) each ended by a normal close of
the channel, with no stop signal, the schedule runs to its end, every `waitForProgress`
has then processed its close, and the shared position equals the `total` computed by
`NewUploaderProgress`, the `int64` sum of the declared sizes (the exact sum whenever that
fits in an `int64`). -/
theorem final_position_after_normal_closes (items : List uploadItem) (sched : List Step)
    (h : normalSchedule items.length sched = true) :
    ∃ p, (NewUploaderProgress items).exec sched = some p ∧
      (∀ w ∈ p.reporters, w.status = .closed) ∧
      p.pos = p.total ∧ p.total = (NewUploaderProgress items).total ∧
      p.total = wrap64 (sizes items).sum ∧
      (isInt64 (sizes items).sum → p.pos = (sizes items).sum) := by
  have hsteps := normalSchedule_steps h
  have hstreams : ∀ i < items.length, normalStream (recvsOf i sched) = true := by
    unfold normalSchedule at h
    rw [Bool.and_eq_true, List.all_eq_true, List.all_eq_true] at h
    intro i hi
    exact h.2 i (List.mem_range.mpr hi)
  obtain ⟨p, hp, hclosed⟩ := normal_exec sched (NewUploaderProgress items) rfl
    (fun a ha => (hsteps a ha).imp id (fun ⟨i, m, e, _⟩ => ⟨i, m, e⟩))
    (by
      intro i
      show match (items.map Reporter.start)[i]? with
        | some w => _
        | none => _
      by_cases hi : i < items.length
      · rw [List.getElem?_map, List.getElem?_eq_getElem hi]
        exact Or.inl ⟨rfl, hstreams i hi⟩
      · rw [List.getElem?_map, List.getElem?_eq_none (by omega)]
        exact recvsOf_eq_nil (by omega) sched hsteps)
  have hR := (Reachable.init items).exec sched hp
  have hcredit : p.reporters.map Reporter.credit = p.reporters.map Reporter.total := by
    apply List.map_congr_left
    intro w hw
    unfold Reporter.credit
    rw [if_pos (hclosed w hw)]
  have hpos : p.pos = wrap64 (sizes items).sum := by
    rw [hR.pos_eq, hcredit, hR.totals_eq]
  have htot : p.total = wrap64 (sizes items).sum := by
    rw [hR.total_eq, NewUploaderProgress_total]
  refine ⟨p, hp, hclosed, by rw [hpos, htot], hR.total_eq, htot, ?_⟩
  intro hfit
  rw [hpos, wrap64_of_isInt64 hfit]

/-- C2 (witness): sizes 100, 200, 700 with the events 50%; 25%, 75%; none, each stream
ended by a close, end with the shared position 1000. -/
theorem final_position_after_normal_closes_witness :
    normalSchedule items3.length sched3 = true ∧
      ∃ p, (NewUploaderProgress items3).exec sched3 = some p ∧ p.pos = 1000 ∧ p.total = 1000 := by
  have hn : normalSchedule items3.length sched3 = true := by decide
  obtain ⟨p, hp, -, h1, -, -, h2⟩ := final_position_after_normal_closes items3 sched3 hn
  have hs : (sizes items3).sum = 1000 := by decide
  rw [hs] at h2
  have hpos := h2 (by unfold isInt64; decide)
  exact ⟨hn, p, hp, hpos, by rw [← h1, hpos]⟩

/-! ## Bounds of the shared position (C4) -/

theorem F32.isPercent_iff (x : F32) : x.isPercent ↔ ∃ q : ℚ, x = .fin q ∧ 0 ≤ q ∧ q ≤ 100 := by
  cases x with
  | fin q => exact ⟨fun h => ⟨q, rfl, h⟩, fun ⟨r, hr, h⟩ => by cases hr; exact h⟩
  | inf s => exact ⟨fun h => h.elim, fun ⟨r, hr, _⟩ => by cases hr⟩
  | nan => exact ⟨fun h => h.elim, fun ⟨r, hr, _⟩ => by cases hr⟩

/-- The byte approximation stays between 0 and the size as soon as the conversion
`float32(total)` does not round the size up. -/
theorem approxBytes_bounds_of_le {total : ℤ} {q : ℚ} (ht0 : 0 ≤ total)
    (ht : total < 9223372036854775808) (hdown : roundF32 (total : ℚ) ≤ total) (h0 : 0 ≤ q)
    (h100 : q ≤ 100) : 0 ≤ approxBytes total (.fin q) ∧ approxBytes total (.fin q) ≤ total := by
  obtain ⟨hdiv, hr0, hr1⟩ := F32.div_hundred h0 h100
  have htq0 : (0 : ℚ) ≤ total := by exact_mod_cast ht0
  have htq : (total : ℚ) < 9223372036854775808 := by exact_mod_cast ht
  have hT0 : 0 ≤ roundF32 (total : ℚ) := roundF32_nonneg htq0
  have hp0 : (0 : ℚ) ≤ roundF32 (total : ℚ) * roundF32 (q / 100) := mul_nonneg hT0 hr0
  have hp1 : roundF32 (total : ℚ) * roundF32 (q / 100) ≤ total := by
    calc roundF32 (total : ℚ) * roundF32 (q / 100) ≤ roundF32 (total : ℚ) * 1 :=
          mul_le_mul_of_nonneg_left hr1 hT0
      _ = roundF32 (total : ℚ) := mul_one _
      _ ≤ total := hdown
  have hy0 := roundF32_nonneg hp0
  have hy1 : roundF32 (roundF32 (total : ℚ) * roundF32 (q / 100)) ≤ total :=
    (roundF32_mono hp0 hp1).trans hdown
  have hofInt : F32.ofInt total = .fin (roundF32 (total : ℚ)) := by
    unfold F32.ofInt
    apply F32.ofRat_of_lt
    rw [abs_of_nonneg hT0]
    calc roundF32 (total : ℚ) ≤ total := hdown
      _ < 9223372036854775808 := htq
      _ ≤ 2 ^ 128 := by norm_num
  have hmul : F32.mul (.fin (roundF32 (total : ℚ))) (.fin (roundF32 (q / 100)))
      = .fin (roundF32 (roundF32 (total : ℚ) * roundF32 (q / 100))) := by
    rw [F32.mul_fin_fin]
    apply F32.ofRat_of_lt
    rw [abs_of_nonneg hy0]
    calc roundF32 (roundF32 (total : ℚ) * roundF32 (q / 100)) ≤ total := hy1
      _ < 9223372036854775808 := htq
      _ ≤ 2 ^ 128 := by norm_num
  have hf0 : 0 ≤ ⌊roundF32 (roundF32 (total : ℚ) * roundF32 (q / 100))⌋ :=
    Int.floor_nonneg.mpr hy0
  have hf1 : ⌊roundF32 (roundF32 (total : ℚ) * roundF32 (q / 100))⌋ ≤ total := by
    have := Int.floor_le_floor hy1
    rwa [Int.floor_intCast] at this
  unfold approxBytes
  rw [hdiv, hofInt, hmul, F32.toInt64_fin, truncQ_of_nonneg hy0,
    if_pos ⟨by omega, by omega⟩]
  exact ⟨hf0, hf1⟩

/-- An in-range branch keeps the local position of a watcher between 0 and its total. -/
theorem Reporter.select_pos_bounds (w : Reporter) (c : Select)
    (ht : 0 ≤ w.total ∧ w.total < 9223372036854775808 ∧ roundF32 (w.total : ℚ) ≤ w.total)
    (hpos : 0 ≤ w.pos ∧ w.pos ≤ w.total)
    (hc : ∀ progress, c = .recv (.value progress) →
      progress.isError = true ∨ progress.Percentage.isPercent) :
    0 ≤ (w.select c).1.pos ∧ (w.select c).1.pos ≤ (w.select c).1.total := by
  rcases c with _ | ⟨⟨progress⟩ | _⟩
  · exact hpos
  · rw [Reporter.select_value]
    rcases hc progress rfl with he | hp
    · rw [if_pos he]; exact hpos
    · by_cases he : progress.isError = true
      · rw [if_pos he]; exact hpos
      · rw [if_neg he]
        obtain ⟨q, hq, h0, h100⟩ := (F32.isPercent_iff _).mp hp
        rw [hq]
        exact approxBytes_bounds_of_le ht.1 ht.2.1 ht.2.2 h0 h100
  · exact hpos

theorem pos_bounds_step {items : List uploadItem} {p q : UploaderProgress}
    (hR : Reachable items p)
    (hsizes : ∀ s ∈ sizes items, 0 ≤ s ∧ s < 9223372036854775808 ∧ roundF32 (s : ℚ) ≤ s)
    (hK : ∀ w ∈ p.reporters, 0 ≤ w.pos ∧ w.pos ≤ w.total) (a : Step) (ha : a.inRange)
    (hq : p.step a = some q) : ∀ w ∈ q.reporters, 0 ≤ w.pos ∧ w.pos ≤ w.total := by
  have hwatch : ∀ (i : ℕ) (c : Select),
      (∀ progress, c = .recv (.value progress) →
        progress.isError = true ∨ progress.Percentage.isPercent) →
      p.watch i c = some q → ∀ w ∈ q.reporters, 0 ≤ w.pos ∧ w.pos ≤ w.total := by
    intro i c hc hq
    unfold UploaderProgress.watch at hq
    cases hw : p.reporters[i]? with
    | none => rw [hw] at hq; cases hq
    | some w =>
      rw [hw] at hq
      simp only at hq
      split_ifs at hq with hrun
      simp only [Option.some.injEq] at hq
      subst hq
      have hmem : w ∈ p.reporters := List.mem_iff_getElem?.mpr ⟨i, hw⟩
      have htot : w.total ∈ sizes items := by
        rw [← hR.totals_eq]
        exact List.mem_map_of_mem _ hmem
      intro v hv
      rcases List.mem_or_eq_of_mem_set hv with hv | rfl
      · exact hK v hv
      · exact Reporter.select_pos_bounds w c (hsizes _ htot) (hK w hmem) hc
  cases a with
  | recv i m =>
    apply hwatch i (.recv m) _ hq
    intro progress hc
    cases hc
    exact ha
  | stop i =>
    rw [UploaderProgress.step_stop] at hq
    split_ifs at hq
    apply hwatch i .done _ hq
    intro progress hc
    cases hc
  | tick =>
    rw [UploaderProgress.step_tick] at hq
    split_ifs at hq
    simp only [Option.some.injEq] at hq
    subst hq
    exact hK
  | runStop =>
    rw [UploaderProgress.step_runStop] at hq
    split_ifs at hq
    simp only [Option.some.injEq] at hq
    subst hq
    exact hK
  | closeDone =>
    rw [UploaderProgress.step_closeDone] at hq
    split_ifs at hq
    simp only [Option.some.injEq] at hq
    subst hq
    exact hK
  | waitReturn =>
    rw [UploaderProgress.step_waitReturn] at hq
    split_ifs at hq
    simp only [Option.some.injEq] at hq
    subst hq
    exact hK

theorem pos_bounds_exec {items : List uploadItem}
    (hsizes : ∀ s ∈ sizes items, 0 ≤ s ∧ s < 9223372036854775808 ∧ roundF32 (s : ℚ) ≤ s) :
    ∀ (sched : List Step) (p q : UploaderProgress), Reachable items p →
      (∀ w ∈ p.reporters, 0 ≤ w.pos ∧ w.pos ≤ w.total) → (∀ a ∈ sched, a.inRange) →
      p.exec sched = some q → ∀ w ∈ q.reporters, 0 ≤ w.pos ∧ w.pos ≤ w.total := by
  intro sched
  induction sched with
  | nil =>
    intro p q _ hK _ hq
    simp only [UploaderProgress.exec, Option.some.injEq] at hq
    subst hq
    exact hK
  | cons a rest ih =>
    intro p q hR hK hin hq
    rw [UploaderProgress.exec_cons] at hq
    cases hs : p.step a with
    | none => rw [hs] at hq; cases hq
    | some r =>
      rw [hs] at hq
      exact ih r q (hR.step a hs)
        (pos_bounds_step hR hsizes hK a (hin a (List.mem_cons_self _ _)) hs)
        (fun b hb => hin b (List.mem_cons_of_mem _ hb)) hq

/-- C4 (amended): for every list of items whose sizes are non-negative, are not rounded
up by the conversion to `float32` (`float32(size) ≤ size`: every size up to `2 ^ 24`,
every exactly representable size and every size that `float32` rounds down) and sum to
less than `2 ^ 63`, and every interleaving of progress events, error events, channel
closes, stop signals and heartbeat ticks in which every non-error progress event carries
a finite percentage between 0 and 100, the shared position satisfies `0 ≤ pos ≤ total`
after every step, where `total` is the sum of the sizes. -/
theorem pos_between_zero_and_total (items : List uploadItem) (sched : List Step) (n : ℕ)
    (p : UploaderProgress)
    (hsizes : ∀ s ∈ sizes items, 0 ≤ s ∧ roundF32 (s : ℚ) ≤ s)
    (hsum : (sizes items).sum < 9223372036854775808)
    (hpct : ∀ a ∈ sched, a.inRange)
    (hexec : (NewUploaderProgress items).exec (sched.take n) = some p) :
    0 ≤ p.pos ∧ p.pos ≤ p.total ∧ p.total = (sizes items).sum := by
  have hnn : ∀ s ∈ sizes items, 0 ≤ s := fun s hs => (hsizes s hs).1
  have hsizes' : ∀ s ∈ sizes items, 0 ≤ s ∧ s < 9223372036854775808 ∧ roundF32 (s : ℚ) ≤ s :=
    fun s hs => ⟨(hsizes s hs).1, lt_of_le_of_lt (List.single_le_sum hnn s hs) hsum,
      (hsizes s hs).2⟩
  have hR := (Reachable.init items).exec _ hexec
  have hK0 : ∀ w ∈ (NewUploaderProgress items).reporters, 0 ≤ w.pos ∧ w.pos ≤ w.total := by
    intro w hw
    obtain ⟨item, hitem, rfl⟩ := List.mem_map.mp hw
    exact ⟨le_refl 0, hnn _ (List.mem_map_of_mem _ hitem)⟩
  have hK := pos_bounds_exec hsizes' (sched.take n) _ p (Reachable.init items) hK0
    (fun a ha => hpct a (List.mem_of_mem_take ha)) hexec
  have hc0 : 0 ≤ (p.reporters.map Reporter.credit).sum := by
    apply List.sum_nonneg
    intro x hx
    obtain ⟨w, hw, rfl⟩ := List.mem_map.mp hx
    unfold Reporter.credit
    split_ifs
    · exact (hK w hw).1.trans (hK w hw).2
    · exact (hK w hw).1
  have hc1 : (p.reporters.map Reporter.credit).sum ≤ (sizes items).sum := by
    rw [← hR.totals_eq]
    apply List.sum_le_sum
    intro w hw
    unfold Reporter.credit
    split_ifs
    · exact le_refl _
    · exact (hK w hw).2
  have hs0 : 0 ≤ (sizes items).sum := List.sum_nonneg hnn
  have htot : p.total = (sizes items).sum := by
    rw [hR.total_eq, NewUploaderProgress_total]
    exact wrap64_of_isInt64 ⟨by omega, hsum⟩
  have hpos : p.pos = (p.reporters.map Reporter.credit).sum := by
    rw [hR.pos_eq]
    exact wrap64_of_isInt64 ⟨by omega, by omega⟩
  rw [hpos, htot]
  exact ⟨hc0, hc1, rfl⟩

theorem approxBytes_200_200 : approxBytes 200 (.fin 200) = 400 := by
  have hp : roundF32 ((200 : ℚ) / 100) = 2 := by
    have : (200 : ℚ) / 100 = ((2 : ℤ) : ℚ) := by norm_num
    rw [this]
    exact_mod_cast roundF32_intCast (n := 2) (by decide)
  have hy : roundF32 (((200 : ℤ) : ℚ) * 2) = 400 := by
    have : ((200 : ℤ) : ℚ) * 2 = ((400 : ℤ) : ℚ) := by norm_num
    rw [this]
    exact_mod_cast roundF32_intCast (n := 400) (by decide)
  have hx : ⌊(400 : ℚ)⌋ = 400 := by
    exact_mod_cast Int.floor_intCast (400 : ℤ)
  exact approxBytes_eval (roundF32_intCast (n := 200) (by decide)) (by norm_num) (by norm_num)
    hp (by norm_num) (by norm_num) hy (by norm_num) (by norm_num) hx (by unfold isInt64; decide)

/-- Execution of a single receive of a non-error report by the only watcher. -/
theorem exec_single_report (item : uploadItem) (pct : F32) :
    (NewUploaderProgress [item]).exec [.recv 0 (.value ⟨pct, false⟩)]
      = some ⟨addInt64 0 (wrap64 (approxBytes item.item.Size pct - 0)),
          wrap64 (0 + item.item.Size), false, 1,
          [⟨item.item.Size, approxBytes item.item.Size pct, .running⟩], true, [], false⟩ := rfl

theorem roundF32_16777217 : roundF32 16777217 = 16777216 := by
  rw [roundF32_eq_of_pos 24 (by norm_num) (by norm_num) (by norm_num)]
  rw [roundHalfEven_tie_even (n := 8388608) (by norm_num) (by norm_num)]
  norm_num

theorem roundF32_16777216 : roundF32 16777216 = 16777216 := by
  rw [roundF32_eq_of_pos 24 (by norm_num) (by norm_num) (by norm_num)]
  have : (16777216 : ℚ) / 2 ^ ((24 : ℤ) - 23) = ((8388608 : ℤ) : ℚ) := by norm_num
  rw [this, roundHalfEven_intCast]
  norm_num

theorem approxBytes_16777217_hundred : approxBytes 16777217 (.fin 100) = 16777216 := by
  unfold approxBytes F32.ofInt
  have h1 : F32.ofRat ((16777217 : ℤ) : ℚ) = .fin 16777216 := by
    apply F32.ofRat_eq
    · exact_mod_cast roundF32_16777217
    · norm_num
  have h2 : F32.div (.fin 100) (.fin 100) = .fin 1 := by
    rw [F32.div_fin_fin, if_neg (by norm_num), div_self (by norm_num)]
    exact F32.ofRat_eq roundF32_one (by norm_num)
  rw [h1, h2, F32.mul_fin_fin, mul_one, F32.ofRat_eq roundF32_16777216 (by norm_num),
    F32.toInt64_fin]
  have : truncQ 16777216 = 16777216 := by
    rw [truncQ_of_nonneg (by norm_num)]
    exact_mod_cast Int.floor_intCast (16777216 : ℤ)
  rw [this]
  norm_num

/-- C4 (counterexample): one item of `2 ^ 25 - 1` bytes, a size that `float32` rounds
up, leaves the shared position at 33554432 when it reports 100%, above the total
33554431; one item of 200 bytes that reports 200% leaves it at 400, above the total 200;
and two items of `2 ^ 62` bytes each start with the position 0 above the wrapped total
`-2 ^ 63`. -/
theorem pos_above_total_counterexample :
    (∃ p, (NewUploaderProgress [item32M]).exec [.recv 0 (.value ⟨.fin 100, false⟩)] = some p ∧
        p.total = 33554431 ∧ p.pos = 33554432 ∧ ¬ p.pos ≤ p.total) ∧
      (∃ p, (NewUploaderProgress [item200]).exec [.recv 0 (.value ⟨.fin 200, false⟩)] = some p ∧
        p.total = 200 ∧ p.pos = 400 ∧ ¬ p.pos ≤ p.total) ∧
      ((NewUploaderProgress [itemHuge, itemHuge]).total = -9223372036854775808 ∧
        ¬ (NewUploaderProgress [itemHuge, itemHuge]).pos
          ≤ (NewUploaderProgress [itemHuge, itemHuge]).total) := by
  refine ⟨?_, ?_, by decide, by decide⟩
  · refine ⟨_, exec_single_report item32M (.fin 100), ?_, ?_, ?_⟩
    · decide
    · show addInt64 0 (wrap64 (approxBytes 33554431 (.fin 100) - 0)) = 33554432
      rw [approxBytes_33554431_hundred]
      decide
    · show ¬ addInt64 0 (wrap64 (approxBytes 33554431 (.fin 100) - 0)) ≤ wrap64 (0 + 33554431)
      rw [approxBytes_33554431_hundred]
      decide
  · refine ⟨_, exec_single_report item200 (.fin 200), ?_, ?_, ?_⟩
    · decide
    · show addInt64 0 (wrap64 (approxBytes 200 (.fin 200) - 0)) = 400
      rw [approxBytes_200_200]
      decide
    · show ¬ addInt64 0 (wrap64 (approxBytes 200 (.fin 200) - 0)) ≤ wrap64 (0 + 200)
      rw [approxBytes_200_200]
      decide

/-- C4 (witness): one item of `2 ^ 24 + 1 = 16777217` bytes, a size that `float32`
rounds down to 16777216, reports 100%, the heartbeat ticks, the channel closes; the
state after the first step has position 16777216 of 16777217. -/
theorem pos_between_zero_and_total_witness :
    (∀ s ∈ sizes [item16M], 0 ≤ s ∧ roundF32 (s : ℚ) ≤ s) ∧
      ∃ p, (NewUploaderProgress [item16M]).exec
          ([Step.recv 0 (.value ⟨.fin 100, false⟩), .tick, .recv 0 .closed].take 1) = some p ∧
        p.pos = 16777216 ∧ 0 ≤ p.pos ∧ p.pos ≤ p.total ∧ p.total = 16777217 := by
  have hexec := exec_single_report item16M (.fin 100)
  have hsizes : ∀ s ∈ sizes [item16M], 0 ≤ s ∧ roundF32 (s : ℚ) ≤ s := by
    intro s hs
    have : s = 16777217 := by simpa [sizes, item16M] using hs
    subst this
    refine ⟨by decide, ?_⟩
    have h := roundF32_16777217
    have h2 : roundF32 ((16777217 : ℤ) : ℚ) = 16777216 := by exact_mod_cast h
    rw [h2]
    norm_num
  have hpct : ∀ a ∈ [Step.recv 0 (.value ⟨.fin 100, false⟩), .tick, .recv 0 .closed],
      a.inRange := by
    intro a ha
    simp only [List.mem_cons, List.mem_singleton, List.not_mem_nil, or_false] at ha
    rcases ha with rfl | rfl | rfl
    · right
      show (0 : ℚ) ≤ 100 ∧ (100 : ℚ) ≤ 100
      constructor <;> norm_num
    · trivial
    · trivial
  have h := pos_between_zero_and_total [item16M]
    [Step.recv 0 (.value ⟨.fin 100, false⟩), .tick, .recv 0 .closed] 1 _ hsizes (by decide) hpct
    hexec
  refine ⟨hsizes, _, hexec, ?_, h.1, h.2.1, by decide⟩
  show addInt64 0 (wrap64 (approxBytes 16777217 (.fin 100) - 0)) = 16777216
  rw [approxBytes_16777217_hundred]
  decide

/-! ## The heartbeat percentage (C5, C6) -/

/-- Rounding a quotient of a small integer by a positive integer never reaches the next
integer: the quotient is at least `1 / b` below it, and half a unit in the last place is
less than that. -/
theorem floor_roundF32_div {a b : ℤ} (ha0 : 0 ≤ a) (ha : a < 16777216) (hb0 : 0 < b)
    (hb : b < 9223372036854775808) :
    ⌊roundF32 ((a : ℚ) / b)⌋ = ⌊(a : ℚ) / b⌋ ∧ 0 ≤ roundF32 ((a : ℚ) / b) ∧
      ⌊(a : ℚ) / b⌋ ≤ a := by
  have hbq : (0 : ℚ) < b := by exact_mod_cast hb0
  have hb1 : (1 : ℚ) ≤ b := by exact_mod_cast hb0
  have haq0 : (0 : ℚ) ≤ a := by exact_mod_cast ha0
  have haq : (a : ℚ) < 16777216 := by exact_mod_cast ha
  have hq0 : (0 : ℚ) ≤ (a : ℚ) / b := div_nonneg haq0 hbq.le
  have hqa : (a : ℚ) / b ≤ a := div_le_self haq0 hb1
  have hk0 : 0 ≤ ⌊(a : ℚ) / b⌋ := Int.floor_nonneg.mpr hq0
  have hka : ⌊(a : ℚ) / b⌋ ≤ a := by
    have := Int.floor_le_floor hqa
    rwa [Int.floor_intCast] at this
  have hr0 : 0 ≤ roundF32 ((a : ℚ) / b) := roundF32_nonneg hq0
  refine ⟨?_, hr0, hka⟩
  rw [Int.floor_eq_iff]
  constructor
  · -- the floor is representable and rounding is monotone
    have hk0q : (0 : ℚ) ≤ (⌊(a : ℚ) / b⌋ : ℚ) := by exact_mod_cast hk0
    have h := roundF32_mono hk0q (Int.floor_le ((a : ℚ) / b))
    rwa [roundF32_intCast (by rw [abs_of_nonneg hk0]; omega)] at h
  · rcases eq_or_lt_of_le ha0 with h0 | hapos
    · rw [← h0]
      simp only [Int.cast_zero, zero_div, roundF32_zero, Int.floor_zero]
      norm_num
    have hapq : (0 : ℚ) < a := by exact_mod_cast hapos
    have ha1 : (1 : ℚ) ≤ a := by exact_mod_cast hapos
    have hqpos : (0 : ℚ) < (a : ℚ) / b := div_pos hapq hbq
    -- the quotient is a normal number
    have hq63 : (2 : ℚ) ^ (-63 : ℤ) ≤ (a : ℚ) / b := by
      rw [le_div_iff₀ hbq]
      have hbq63 : (b : ℚ) < 9223372036854775808 := by exact_mod_cast hb
      have : (2 : ℚ) ^ (-63 : ℤ) = 1 / 9223372036854775808 := by norm_num
      rw [this]
      calc 1 / 9223372036854775808 * (b : ℚ) ≤ 1 / 9223372036854775808 * 9223372036854775808 :=
            mul_le_mul_of_nonneg_left hbq63.le (by norm_num)
        _ = 1 := by norm_num
        _ ≤ a := ha1
    have hlog : -63 ≤ Int.log 2 ((a : ℚ) / b) :=
      (Int.zpow_le_iff_le_log (by norm_num) hqpos).mp hq63
    have hulp : ulpExp ((a : ℚ) / b) = Int.log 2 ((a : ℚ) / b) - 23 := by
      unfold ulpExp
      rw [abs_of_pos hqpos]
      omega
    have herr := abs_roundF32_sub_le ((a : ℚ) / b)
    rw [hulp] at herr
    have hhalf : (2 : ℚ) ^ (Int.log 2 ((a : ℚ) / b) - 23) / 2
        = 2 ^ Int.log 2 ((a : ℚ) / b) / 16777216 := by
      rw [zpow_sub₀ (by norm_num)]
      norm_num
      ring
    have hle : (2 : ℚ) ^ Int.log 2 ((a : ℚ) / b) / 16777216 ≤ (a : ℚ) / b / 16777216 :=
      div_le_div_of_nonneg_right (zpow_log_le hqpos) (by norm_num)
    have hlt : (a : ℚ) / b / 16777216 < 1 / b := by
      rw [div_div, div_lt_div_iff₀ (by positivity) hbq]
      nlinarith
    -- the next integer is at least `1 / b` away
    have hgap : (a : ℚ) / b + 1 / b ≤ (⌊(a : ℚ) / b⌋ : ℚ) + 1 := by
      have h1 : (a : ℚ) / b < (⌊(a : ℚ) / b⌋ : ℚ) + 1 := Int.lt_floor_add_one _
      rw [div_lt_iff₀ hbq] at h1
      have h2 : a < (⌊(a : ℚ) / b⌋ + 1) * b := by exact_mod_cast h1
      have h3 : a + 1 ≤ (⌊(a : ℚ) / b⌋ + 1) * b := h2
      have h4 : (a : ℚ) + 1 ≤ ((⌊(a : ℚ) / b⌋ : ℚ) + 1) * b := by exact_mod_cast h3
      rw [← add_div, div_le_iff₀ hbq]
      exact h4
    have hup := (abs_le.mp herr).2
    linarith

theorem Rat.floor_intCast_div_intCast {a b : ℤ} (hb : 0 < b) : ⌊(a : ℚ) / b⌋ = a / b := by
  obtain ⟨n, rfl⟩ := Int.eq_ofNat_of_zero_le hb.le
  exact_mod_cast Rat.floor_intCast_div_natCast a n

/-- The heartbeat's percentage, when `100 * pos` is below `2 ^ 24` and `total` is exactly
representable: the quotient truncated, not rounded to nearest. -/
theorem percent_eq_floor_of_rep {pos total : ℤ} (hpos : 0 ≤ pos) (h100 : 100 * pos < 16777216)
    (htot : 0 < total) (ht : total < 9223372036854775808)
    (hrep : roundF32 (total : ℚ) = total) :
    percent pos total = ⌊((100 * pos : ℤ) : ℚ) / total⌋ := by
  have ha0 : 0 ≤ 100 * pos := by omega
  obtain ⟨hfl, hr0, hka⟩ := floor_roundF32_div ha0 h100 htot ht
  have htq : (0 : ℚ) < total := by exact_mod_cast htot
  have htq63 : (total : ℚ) < 9223372036854775808 := by exact_mod_cast ht
  have hk0 : 0 ≤ ⌊((100 * pos : ℤ) : ℚ) / total⌋ :=
    Int.floor_nonneg.mpr (div_nonneg (by exact_mod_cast ha0) htq.le)
  have hrlt : roundF32 (((100 * pos : ℤ) : ℚ) / total) < 2 ^ 128 := by
    have h1 := Int.lt_floor_add_one (roundF32 (((100 * pos : ℤ) : ℚ) / total))
    rw [hfl] at h1
    have h2 : (⌊((100 * pos : ℤ) : ℚ) / total⌋ : ℚ) + 1 ≤ 16777216 := by
      have : ⌊((100 * pos : ℤ) : ℚ) / total⌋ + 1 ≤ 16777216 := by omega
      exact_mod_cast this
    calc roundF32 (((100 * pos : ℤ) : ℚ) / total) < _ := h1
      _ ≤ 16777216 := h2
      _ ≤ 2 ^ 128 := by norm_num
  unfold percent F32.ofInt
  rw [wrap64_of_isInt64 (by unfold isInt64; omega)]
  rw [F32.ofRat_eq_of_nonneg (roundF32_intCast (by rw [abs_of_nonneg ha0]; omega))
      (by exact_mod_cast ha0) (by
        have : ((100 * pos : ℤ) : ℚ) < 16777216 := by exact_mod_cast h100
        calc ((100 * pos : ℤ) : ℚ) < 16777216 := this
          _ ≤ 2 ^ 128 := by norm_num),
    F32.ofRat_eq_of_nonneg hrep htq.le (htq63.trans_le (by norm_num)),
    F32.div_fin_fin, if_neg htq.ne', F32.ofRat_eq_of_nonneg rfl hr0 hrlt, F32.toInt32_fin,
    truncQ_of_nonneg hr0, hfl, if_pos ⟨by omega, by omega⟩]

theorem roundF32_two_pow_63 : roundF32 9223372036854775808 = 9223372036854775808 := by
  rw [roundF32_eq_of_pos 63 (by norm_num) (by norm_num) (by norm_num)]
  have : (9223372036854775808 : ℚ) / 2 ^ ((63 : ℤ) - 23) = ((8388608 : ℤ) : ℚ) := by norm_num
  rw [this, roundHalfEven_intCast]
  norm_num

theorem roundF32_below_one : roundF32 (16777215 / 16777216) = 16777215 / 16777216 := by
  rw [roundF32_eq_of_pos (-1) (by norm_num) (by norm_num) (by norm_num)]
  have : (16777215 / 16777216 : ℚ) / 2 ^ ((-1 : ℤ) - 23) = ((16777215 : ℤ) : ℚ) := by norm_num
  rw [this, roundHalfEven_intCast]
  norm_num

/-- A numerator below `2 ^ 24` over a total of at least `2 ^ 24`: the quotient rounds to
a value below 1 and the percentage is 0. -/
theorem percent_eq_zero_of_large {pos total : ℤ} (hpos : 0 ≤ pos)
    (h100 : 100 * pos < 16777216) (hbig : 16777216 ≤ total)
    (ht : total < 9223372036854775808) : percent pos total = 0 := by
  have ha0 : 0 ≤ 100 * pos := by omega
  have haq0 : (0 : ℚ) ≤ ((100 * pos : ℤ) : ℚ) := by exact_mod_cast ha0
  have haq : ((100 * pos : ℤ) : ℚ) ≤ 16777215 := by
    have : 100 * pos ≤ 16777215 := by omega
    exact_mod_cast this
  have htq : (16777216 : ℚ) ≤ total := by exact_mod_cast hbig
  have htq63 : (total : ℚ) ≤ 9223372036854775808 := by exact_mod_cast ht.le
  have hB1 : (16777216 : ℚ) ≤ roundF32 (total : ℚ) := by
    have := roundF32_mono (by norm_num) htq
    rwa [roundF32_16777216] at this
  have hB2 : roundF32 (total : ℚ) ≤ 9223372036854775808 := by
    have := roundF32_mono (by linarith) htq63
    rwa [roundF32_two_pow_63] at this
  have hBpos : (0 : ℚ) < roundF32 (total : ℚ) := by linarith
  have hq0 : (0 : ℚ) ≤ ((100 * pos : ℤ) : ℚ) / roundF32 (total : ℚ) := div_nonneg haq0 hBpos.le
  have hq1 : ((100 * pos : ℤ) : ℚ) / roundF32 (total : ℚ) ≤ 16777215 / 16777216 := by
    rw [div_le_div_iff₀ hBpos (by norm_num)]
    nlinarith
  have hr0 := roundF32_nonneg hq0
  have hr1 : roundF32 (((100 * pos : ℤ) : ℚ) / roundF32 (total : ℚ)) ≤ 16777215 / 16777216 := by
    have := roundF32_mono hq0 hq1
    rwa [roundF32_below_one] at this
  have hfloor : ⌊roundF32 (((100 * pos : ℤ) : ℚ) / roundF32 (total : ℚ))⌋ = 0 := by
    rw [Int.floor_eq_iff]
    constructor
    · simpa using hr0
    · have : (16777215 / 16777216 : ℚ) < 1 := by norm_num
      simp only [Int.cast_zero, zero_add]
      linarith
  unfold percent F32.ofInt
  rw [wrap64_of_isInt64 (by unfold isInt64; omega)]
  rw [F32.ofRat_eq_of_nonneg (roundF32_intCast (by rw [abs_of_nonneg ha0]; omega)) haq0
      (by linarith [show (16777215 : ℚ) ≤ 2 ^ 128 by norm_num]),
    F32.ofRat_eq_of_nonneg rfl hBpos.le
      (by linarith [show (9223372036854775808 : ℚ) < 2 ^ 128 by norm_num]),
    F32.div_fin_fin, if_neg hBpos.ne',
    F32.ofRat_eq_of_nonneg rfl hr0
      (by linarith [show (16777215 / 16777216 : ℚ) < 2 ^ 128 by norm_num]),
    F32.toInt32_fin, truncQ_of_nonneg hr0, hfloor]
  decide

/-- The heartbeat's percentage when `100 * pos` is below `2 ^ 24`: the quotient
truncated, not rounded to nearest. -/
theorem percent_eq_floor {pos total : ℤ} (hpos : 0 ≤ pos) (h100 : 100 * pos < 16777216)
    (htot : 0 < total) (ht : total < 9223372036854775808) :
    percent pos total = ⌊((100 * pos : ℤ) : ℚ) / total⌋ := by
  by_cases hsmall : total < 16777216
  · exact percent_eq_floor_of_rep hpos h100 htot ht
      (roundF32_intCast (by rw [abs_of_pos htot]; omega))
  · rw [percent_eq_zero_of_large hpos h100 (by omega) ht, Rat.floor_intCast_div_intCast htot]
    symm
    apply Int.ediv_eq_zero_of_lt (by omega)
    omega

/-- C5 (amended): for every position and total with `0 ≤ pos ≤ total`, `total > 0` an
`int64` and `100 * pos` below `2 ^ 24`, the percentage the heartbeat passes to
`HttpNfcLeaseProgress` is `100 * pos / total` rounded down to an integer (truncated), not
rounded to the nearest integer; it lies between 0 and 100. -/
theorem percent_truncates (pos total : ℤ) (hpos : 0 ≤ pos) (hle : pos ≤ total)
    (htot : 0 < total) (h100 : 100 * pos < 16777216) (ht : total < 9223372036854775808) :
    percent pos total = ⌊(100 * pos / total : ℚ)⌋ ∧ percent pos total = 100 * pos / total ∧
      0 ≤ percent pos total ∧ percent pos total ≤ 100 := by
  have h := percent_eq_floor hpos h100 htot ht
  have hdiv : ⌊((100 * pos : ℤ) : ℚ) / total⌋ = 100 * pos / total :=
    Rat.floor_intCast_div_intCast htot
  have hcast : (((100 * pos : ℤ) : ℚ) / total) = (100 * pos / total : ℚ) := by push_cast; ring
  refine ⟨by rw [h, hcast], by rw [h, hdiv], ?_, ?_⟩
  · rw [h, hdiv]
    exact Int.ediv_nonneg (by omega) htot.le
  · rw [h, hdiv]
    apply Int.ediv_le_of_le_mul htot
    omega

/-- C5 (witness): position 50 of total 200 is reported as 25. -/
theorem percent_truncates_witness : percent 50 200 = 100 * 50 / 200 ∧ percent 50 200 = 25 :=
  have h := percent_truncates 50 200 (by decide) (by decide) (by decide) (by decide) (by decide)
  ⟨h.2.1, by rw [h.2.1]; decide⟩

theorem percent_16777219 : percent 16777219 16777219 = 99 := by
  have hw : wrap64 (100 * 16777219) = 1677721900 := by decide
  have ha : roundF32 ((1677721900 : ℤ) : ℚ) = 1677721856 := by
    rw [roundF32_eq_of_pos 30 (by norm_num) (by norm_num) (by norm_num)]
    rw [roundHalfEven_of_lt (n := 13107202) (by norm_num) (by norm_num)]
    norm_num
  have hb : roundF32 ((16777219 : ℤ) : ℚ) = 16777220 := by
    rw [roundF32_eq_of_pos 24 (by norm_num) (by norm_num) (by norm_num)]
    rw [roundHalfEven_tie_odd (n := 8388609) (by norm_num) (by norm_num)]
    norm_num
  have hq : roundF32 ((1677721856 : ℚ) / 16777220) = 13107199 / 131072 := by
    rw [roundF32_eq_of_pos 6 (by norm_num) (by norm_num) (by norm_num)]
    rw [roundHalfEven_of_gt (n := 13107198) (by norm_num) (by norm_num)]
    norm_num
  have hx : ⌊(13107199 / 131072 : ℚ)⌋ = 99 := by
    rw [Int.floor_eq_iff]
    constructor <;> norm_num
  unfold percent F32.ofInt
  rw [hw, F32.ofRat_eq_of_nonneg ha (by norm_num) (by norm_num),
    F32.ofRat_eq_of_nonneg hb (by norm_num) (by norm_num), F32.div_fin_fin,
    if_neg (by norm_num), F32.ofRat_eq_of_nonneg hq (by norm_num) (by norm_num),
    F32.toInt32_fin, truncQ_of_nonneg (by norm_num), hx]
  decide

/-- C5 (counterexample): position 2 of total 3 is reported as 66, while `100 * 2 / 3`
rounded to the nearest integer is 67; and position 16777219 of total 16777219 is
reported as 99, while `100 * pos / total` is exactly 100. -/
theorem percent_not_rounded_counterexample :
    (percent 2 3 = 66 ∧ round (100 * 2 / 3 : ℚ) = 67) ∧
      (percent 16777219 16777219 = 99 ∧ round (100 * 16777219 / 16777219 : ℚ) = 100) := by
  refine ⟨⟨?_, ?_⟩, percent_16777219, ?_⟩
  · rw [percent_eq_floor (by decide) (by decide) (by decide) (by decide),
      Rat.floor_intCast_div_intCast (by decide)]
    decide
  · rw [round_eq, Int.floor_eq_iff]
    constructor <;> norm_num
  · rw [round_eq, Int.floor_eq_iff]
    constructor <;> norm_num

theorem F32.ofInt_zero : F32.ofInt 0 = .fin 0 := by
  unfold F32.ofInt
  rw [Int.cast_zero]
  exact F32.ofRat_eq_of_nonneg roundF32_zero (le_refl 0) (by norm_num)

theorem percent_zero_zero : percent 0 0 = -2147483648 := by
  unfold percent
  have h0 : wrap64 (100 * 0) = 0 := by decide
  rw [h0, F32.ofInt_zero, F32.div_fin_fin, if_pos rfl, if_pos rfl]
  rfl

/-- C6 (the code at the failing input): with an empty item list, or with one item of
declared size 0, `total` is 0; a heartbeat tick then divides `float32(0)` by
`float32(0)`, the quotient is NaN, and the tick does make a report, whose value is the
conversion of NaN to `int32` (`-2147483648` in this model), not 100. -/
theorem run_tick_with_zero_total :
    (NewUploaderProgress []).total = 0 ∧ (NewUploaderProgress [item0]).total = 0 ∧
      F32.ofInt (NewUploaderProgress []).total = .fin 0 ∧
      F32.div (F32.ofInt (wrap64 (100 * (NewUploaderProgress []).pos)))
        (F32.ofInt (NewUploaderProgress []).total) = .nan ∧
      ((NewUploaderProgress []).step .tick).map (fun p => p.reported) = some [-2147483648] ∧
      ((NewUploaderProgress [item0]).step .tick).map (fun p => p.reported)
        = some [-2147483648] := by
  have h0 : wrap64 (100 * 0) = 0 := by decide
  refine ⟨rfl, by decide, F32.ofInt_zero, ?_, ?_, ?_⟩
  · show F32.div (F32.ofInt (wrap64 (100 * 0))) (F32.ofInt 0) = .nan
    rw [h0, F32.ofInt_zero, F32.div_fin_fin, if_pos rfl, if_pos rfl]
  · have hr : (NewUploaderProgress []).running = true := rfl
    rw [UploaderProgress.step_tick, if_pos hr]
    show some ([] ++ [percent 0 0]) = some [-2147483648]
    rw [percent_zero_zero]
    rfl
  · have hr : (NewUploaderProgress [item0]).running = true := rfl
    have ht : (NewUploaderProgress [item0]).total = 0 := by decide
    rw [UploaderProgress.step_tick, if_pos hr, ht]
    show some ([] ++ [percent 0 0]) = some [-2147483648]
    rw [percent_zero_zero]
    rfl

/-! ## The shutdown barrier (C8) -/

/-- C8 (amended): for every list of items and every schedule, `Done` returns only after
the heartbeat goroutine `run` has exited: the WaitGroup that `Done` waits on counts
exactly one goroutine, the heartbeat, whatever the number of items. The
`waitForProgress` goroutines are not counted by it. -/
theorem Done_waits_for_run (items : List uploadItem) (sched : List Step) (p : UploaderProgress)
    (hexec : (NewUploaderProgress items).exec sched = some p) (hdone : p.waited = true) :
    p.running = false ∧ p.done = true ∧ (NewUploaderProgress items).wg = 1 := by
  have hR := (Reachable.init items).exec sched hexec
  have hwg := hR.waited_imp hdone
  have h := hR.wg_eq
  rw [hwg] at h
  refine ⟨?_, hR.done_of_waited hdone, rfl⟩
  cases hr : p.running with
  | false => rfl
  | true => rw [hr] at h; simp at h

/-- C8 (witness): one item; `Done` closes the channel, `run` returns, the wait returns. -/
theorem Done_waits_for_run_witness :
    ∃ p, (NewUploaderProgress [item200]).exec [.closeDone, .runStop, .waitReturn] = some p ∧
      p.waited = true ∧ p.running = false :=
  have hexec : (NewUploaderProgress [item200]).exec [.closeDone, .runStop, .waitReturn]
      = some ⟨0, 200, true, 0, [⟨200, 0, .running⟩], false, [], true⟩ := by decide
  ⟨_, hexec, rfl, (Done_waits_for_run [item200] _ _ hexec rfl).1⟩

/-- C8 (counterexample): with one item, `Done` can return while the `waitForProgress`
goroutine of that item is still in its loop; the WaitGroup counter after
`NewUploaderProgress` is 1, not the number of items plus one. -/
theorem Done_returns_before_watchers_counterexample :
    (NewUploaderProgress [item200]).exec [.closeDone, .runStop, .waitReturn]
        = some ⟨0, 200, true, 0, [⟨200, 0, .running⟩], false, [], true⟩ ∧
      (NewUploaderProgress [item200]).wg ≠ ([item200].length : ℤ) + 1 := by
  constructor
  · decide
  · decide

/-! ## Transport errors in `upload` (C7) -/

theorem upload.loop_cons (transport : ℕ → uploadItem → Option GoError) (k : ℕ)
    (item : uploadItem) (rest : List uploadItem) :
    upload.loop transport k (item :: rest)
      = match transport k item with
        | some err => ([Call.uploadItem k item], some err)
        | none =>
          (Call.uploadItem k item :: (upload.loop transport (k + 1) rest).1,
            (upload.loop transport (k + 1) rest).2) := by
  cases h : transport k item <;> simp [upload.loop, h]

/-- The loop stops at the first transport error: it has called the transport for the
items up to that one, in order, and for none after it. -/
theorem upload.loop_first_error (transport : ℕ → uploadItem → Option GoError) (e : GoError) :
    ∀ (items : List uploadItem) (off k : ℕ),
      (∀ j < k, ∀ item, items[j]? = some item → transport (off + j) item = none) →
      (∃ item, items[k]? = some item ∧ transport (off + k) item = some e) →
      upload.loop transport off items
        = (((items.take (k + 1)).enumFrom off).map (fun x => Call.uploadItem x.1 x.2), some e) := by
  intro items
  induction items with
  | nil =>
    intro off k _ h
    obtain ⟨item, h, _⟩ := h
    simp at h
  | cons first rest ih =>
    intro off k hbefore hat
    rw [upload.loop_cons]
    cases k with
    | zero =>
      obtain ⟨item, h1, h2⟩ := hat
      simp only [List.getElem?_cons_zero, Option.some.injEq] at h1
      subst h1
      rw [Nat.add_zero] at h2
      rw [h2]
      rfl
    | succ k =>
      have h0 : transport off first = none := by
        have := hbefore 0 (Nat.succ_pos k) first (by simp)
        rwa [Nat.add_zero] at this
      rw [h0]
      have hih := ih (off + 1) k
        (by
          intro j hj item hitem
          have := hbefore (j + 1) (Nat.succ_lt_succ hj) item (by simpa using hitem)
          rwa [show off + (j + 1) = off + 1 + j by omega] at this)
        (by
          obtain ⟨item, h1, h2⟩ := hat
          refine ⟨item, by simpa using h1, ?_⟩
          rwa [show off + (k + 1) = off + 1 + k by omega] at h2)
      rw [hih]
      rfl

theorem upload.transfer_first_error (r : Remote) (info : HttpNfcLeaseInfo)
    (items : List uploadItem) (k : ℕ) (e : GoError)
    (hbefore : ∀ j < k, ∀ item, items[j]? = some item → r.uploadItem j item = none)
    (hat : ∃ item, items[k]? = some item ∧ r.uploadItem k item = some e) :
    upload.transfer r info items
      = (Call.NewUploaderProgress items :: transportCalls items k ++ [Call.Done],
          .returned none (some e)) := by
  have h := upload.loop_first_error r.uploadItem e items 0 k
    (by simpa using hbefore) (by simpa using hat)
  unfold upload.transfer
  rw [h]
  rfl

theorem upload_reaches_transfer (r : Remote) (spec : OvfCreateImportSpecResult)
    (info : HttpNfcLeaseInfo) (items : List uploadItem)
    (h1 : r.Datacenter = none) (h2 : r.Datastore = none) (h3 : r.Folder = none)
    (h4 : r.ResourcePool = none) (hspec : r.CreateImportSpec = .ok spec)
    (hnoerr : spec.Error = none) (h5 : r.ImportVApp = none) (hwait : r.Wait = .ok info)
    (hitems : upload.items r.ParseURL info.DeviceUrl spec.FileItem = .ok items) :
    upload r
      = (upload.resolved ++ ((spec.Warning.getD []).map (fun w => Call.logWarning w.LocalizedMessage)
            ++ ([Call.ImportVApp, Call.Wait] ++ (upload.transfer r info items).1)),
          (upload.transfer r info items).2) := by
  unfold upload
  rw [h1, h2, h3, h4, hspec]
  simp only
  unfold upload.checkSpec
  rw [hnoerr]
  simp only
  unfold upload.lease
  rw [h5, hwait]
  simp only
  rw [hitems]
  rfl

theorem transportCalls_mem {items : List uploadItem} {k : ℕ} {c : Call}
    (h : c ∈ transportCalls items k) :
    ∃ j item, c = Call.uploadItem j item ∧ j ≤ k ∧ items[j]? = some item := by
  unfold transportCalls at h
  obtain ⟨x, hx, rfl⟩ := List.mem_map.mp h
  refine ⟨x.1, x.2, rfl, ?_⟩
  have hx' : (x.1, x.2) ∈ (items.take (k + 1)).enum := hx
  rw [List.mk_mem_enum_iff_getElem?] at hx'
  rw [List.getElem?_take] at hx'
  split_ifs at hx' with hlt
  exact ⟨by omega, hx'⟩

/-- C7: for every list of upload items in which the transport call for the item at
index `k` is the first to return an error `e` (the steps of `upload` before the transfer
having succeeded), `upload` invokes the transport for exactly the items at indices
`0 .. k`, in list order, and for none after `k`; it does not call
`HttpNfcLeaseComplete`; it calls `Done` exactly once, as its last call; and it returns
the error `e` unchanged with a nil entity reference. -/
theorem upload_stops_at_first_transport_error (r : Remote) (spec : OvfCreateImportSpecResult)
    (info : HttpNfcLeaseInfo) (items : List uploadItem) (k : ℕ) (e : GoError)
    (h1 : r.Datacenter = none) (h2 : r.Datastore = none) (h3 : r.Folder = none)
    (h4 : r.ResourcePool = none) (hspec : r.CreateImportSpec = .ok spec)
    (hnoerr : spec.Error = none) (h5 : r.ImportVApp = none) (hwait : r.Wait = .ok info)
    (hitems : upload.items r.ParseURL info.DeviceUrl spec.FileItem = .ok items)
    (hbefore : ∀ j < k, ∀ item, items[j]? = some item → r.uploadItem j item = none)
    (hat : ∃ item, items[k]? = some item ∧ r.uploadItem k item = some e) :
    (upload r).2 = .returned none (some e) ∧
      (upload r).1
        = upload.resolved
          ++ ((spec.Warning.getD []).map (fun w => Call.logWarning w.LocalizedMessage)
          ++ ([Call.ImportVApp, Call.Wait]
          ++ (Call.NewUploaderProgress items :: transportCalls items k ++ [Call.Done]))) ∧
      (upload r).1.filter (fun c => c matches Call.uploadItem _ _) = transportCalls items k ∧
      Call.HttpNfcLeaseComplete ∉ (upload r).1 ∧
      (upload r).1.count Call.Done = 1 ∧
      (upload r).1.getLast? = some Call.Done := by
  have hu := upload_reaches_transfer r spec info items h1 h2 h3 h4 hspec hnoerr h5 hwait hitems
  rw [upload.transfer_first_error r info items k e hbefore hat] at hu
  have hmem : ∀ c ∈ transportCalls items k, ∃ j item, c = Call.uploadItem j item :=
    fun c hc => by
      obtain ⟨j, item, h, _⟩ := transportCalls_mem hc
      exact ⟨j, item, h⟩
  have hfilter : (transportCalls items k).filter (fun c => c matches Call.uploadItem _ _)
      = transportCalls items k := by
    rw [List.filter_eq_self]
    intro c hc
    obtain ⟨j, item, rfl⟩ := hmem c hc
    rfl
  have hwarn : ∀ c ∈ (spec.Warning.getD []).map (fun w => Call.logWarning w.LocalizedMessage),
      ∃ msg, c = Call.logWarning msg := by
    intro c hc
    obtain ⟨w, _, rfl⟩ := List.mem_map.mp hc
    exact ⟨_, rfl⟩
  have hwfilter : ((spec.Warning.getD []).map
      (fun w => Call.logWarning w.LocalizedMessage)).filter
        (fun c => c matches Call.uploadItem _ _) = [] := by
    rw [List.filter_eq_nil_iff]
    intro c hc
    obtain ⟨msg, rfl⟩ := hwarn c hc
    simp
  have hA : Call.HttpNfcLeaseComplete ∉ (spec.Warning.getD []).map
      (fun w => Call.logWarning w.LocalizedMessage) := by
    intro hc
    obtain ⟨msg, h⟩ := hwarn _ hc
    cases h
  have hB : Call.HttpNfcLeaseComplete ∉ transportCalls items k := by
    intro hc
    obtain ⟨j, item, h⟩ := hmem _ hc
    cases h
  have hc1 : ((spec.Warning.getD []).map
      (fun w => Call.logWarning w.LocalizedMessage)).count Call.Done = 0 := by
    rw [List.count_eq_zero]
    intro hc
    obtain ⟨msg, h⟩ := hwarn _ hc
    cases h
  have hc2 : (transportCalls items k).count Call.Done = 0 := by
    rw [List.count_eq_zero]
    intro hc
    obtain ⟨j, item, h⟩ := hmem _ hc
    cases h
  rw [hu]
  refine ⟨rfl, rfl, ?_, ?_, ?_, ?_⟩
  · simp only [List.filter_append, hwfilter, List.filter_cons, hfilter, upload.resolved]
    simp
  · simp [upload.resolved, hA, hB]
  · simp [List.count_append, List.count_cons, hc1, hc2, upload.resolved]
  · have : upload.resolved
        ++ ((spec.Warning.getD []).map (fun w => Call.logWarning w.LocalizedMessage)
        ++ ([Call.ImportVApp, Call.Wait]
        ++ (Call.NewUploaderProgress items :: transportCalls items k ++ [Call.Done])))
        = (upload.resolved
        ++ ((spec.Warning.getD []).map (fun w => Call.logWarning w.LocalizedMessage)
        ++ ([Call.ImportVApp, Call.Wait]
        ++ (Call.NewUploaderProgress items :: transportCalls items k)))) ++ [Call.Done] := by
      simp
    show List.getLast? (upload.resolved
        ++ ((spec.Warning.getD []).map (fun w => Call.logWarning w.LocalizedMessage)
        ++ ([Call.ImportVApp, Call.Wait]
        ++ (Call.NewUploaderProgress items :: transportCalls items k ++ [Call.Done]))))
      = some Call.Done
    rw [this, List.getLast?_concat]

/-- C7 (witness): three items, the transport of the second one fails with
"unexpected EOF": two transport calls, no `HttpNfcLeaseComplete`, one `Done`, the same
error returned. -/
theorem upload_stops_at_first_transport_error_witness :
    (upload remoteFailingSecond).2 = .returned none (some "unexpected EOF") ∧
      (upload remoteFailingSecond).1.filter (fun c => c matches Call.uploadItem _ _)
        = [Call.uploadItem 0 ⟨"https://esx/nfc/disk-0.vmdk", ⟨"disk-0", "disk-0.vmdk", 100, false⟩⟩,
            Call.uploadItem 1
              ⟨"https://esx/nfc/disk-1.vmdk", ⟨"disk-1", "disk-1.vmdk", 200, false⟩⟩] ∧
      Call.HttpNfcLeaseComplete ∉ (upload remoteFailingSecond).1 ∧
      (upload remoteFailingSecond).1.count Call.Done = 1 :=
  have h := upload_stops_at_first_transport_error remoteFailingSecond spec3 info3 items3 1
    "unexpected EOF" rfl rfl rfl rfl rfl rfl rfl rfl (by rfl)
    (by
      intro j hj item _
      have : j = 0 := by omega
      subst this
      rfl)
    ⟨⟨"https://esx/nfc/disk-1.vmdk", ⟨"disk-1", "disk-1.vmdk", 200, false⟩⟩, rfl, rfl⟩
  ⟨h.1, h.2.2.1, h.2.2.2.1, h.2.2.2.2.1⟩

/-! ## Faults of the import spec (C9) -/

theorem upload_after_spec (r : Remote) (spec : OvfCreateImportSpecResult)
    (h1 : r.Datacenter = none) (h2 : r.Datastore = none) (h3 : r.Folder = none)
    (h4 : r.ResourcePool = none) (hspec : r.CreateImportSpec = .ok spec) :
    upload r = (upload.resolved ++ (upload.checkSpec r spec).1, (upload.checkSpec r spec).2) := by
  unfold upload
  rw [h1, h2, h3, h4, hspec]
  rfl

theorem upload.lease_calls_ImportVApp (r : Remote) (spec : OvfCreateImportSpecResult) :
    Call.ImportVApp ∈ (upload.lease r spec).1 := by
  unfold upload.lease
  cases r.ImportVApp with
  | some err => simp
  | none =>
    simp only
    cases r.Wait with
    | error err => simp
    | ok info =>
      simp only
      cases upload.items r.ParseURL info.DeviceUrl spec.FileItem with
      | error err => simp
      | ok items => simp

/-- C9 (amended): for every import specification result returned by `CreateImportSpec`
(the inventory lookups before it having succeeded) whose `Error` slice is nil or
non-empty, `upload` ends at the spec-creation step exactly when the error list is
non-empty; it then returns, with a nil entity reference and without opening a lease, an
error whose message is the `LocalizedMessage` of the first reported hard error, verbatim
(the messages of further hard errors are not surfaced). A result with no errors and any
number of warnings does not fail at this step: the warnings are logged and `ImportVApp`
is called. -/
theorem upload_spec_errors (r : Remote) (spec : OvfCreateImportSpecResult)
    (h1 : r.Datacenter = none) (h2 : r.Datastore = none) (h3 : r.Folder = none)
    (h4 : r.ResourcePool = none) (hspec : r.CreateImportSpec = .ok spec)
    (hslice : spec.Error ≠ some []) :
    ((upload r).1 = upload.resolved ↔ spec.Error.getD [] ≠ []) ∧
      (∀ fault rest, spec.Error = some (fault :: rest) →
        upload r = (upload.resolved, .returned none (some fault.LocalizedMessage)) ∧
          Call.ImportVApp ∉ (upload r).1) ∧
      (spec.Error.getD [] = [] →
        upload r
          = (upload.resolved
              ++ ((spec.Warning.getD []).map (fun w => Call.logWarning w.LocalizedMessage)
              ++ (upload.lease r spec).1), (upload.lease r spec).2) ∧
          Call.ImportVApp ∈ (upload r).1) := by
  have hu := upload_after_spec r spec h1 h2 h3 h4 hspec
  have herr : ∀ fault rest, spec.Error = some (fault :: rest) →
      upload r = (upload.resolved, .returned none (some fault.LocalizedMessage)) := by
    intro fault rest he
    rw [hu]
    unfold upload.checkSpec
    rw [he]
    simp
  have hok : spec.Error = none →
      upload r
        = (upload.resolved
            ++ ((spec.Warning.getD []).map (fun w => Call.logWarning w.LocalizedMessage)
            ++ (upload.lease r spec).1), (upload.lease r spec).2) := by
    intro he
    rw [hu]
    unfold upload.checkSpec
    rw [he]
  have hnone : spec.Error.getD [] = [] → spec.Error = none := by
    intro h
    cases he : spec.Error with
    | none => rfl
    | some l =>
      rw [he] at h
      simp only [Option.getD_some] at h
      rw [he, h] at hslice
      exact absurd rfl hslice
  refine ⟨?_, ?_, ?_⟩
  · constructor
    · intro h hempty
      have h2 := hok (hnone hempty)
      rw [h2] at h
      have hmem : Call.ImportVApp ∈ upload.resolved := by
        rw [← h]
        simp [upload.lease_calls_ImportVApp]
      simp [upload.resolved] at hmem
    · intro h
      cases he : spec.Error with
      | none => rw [he] at h; simp at h
      | some l =>
        cases l with
        | nil => exact absurd he hslice
        | cons fault rest => rw [herr fault rest he]
  · intro fault rest he
    refine ⟨herr fault rest he, ?_⟩
    rw [herr fault rest he]
    simp [upload.resolved]
  · intro hempty
    refine ⟨hok (hnone hempty), ?_⟩
    rw [hok (hnone hempty)]
    simp [upload.lease_calls_ImportVApp]

/-- C9 (witness): a result with one warning and no error passes the step; `ImportVApp`
is called. -/
theorem upload_spec_errors_witness :
    spec3.Error ≠ some [] ∧ spec3.Error.getD [] = [] ∧
      Call.ImportVApp ∈ (upload (remoteWithSpec spec3)).1 ∧
      (upload (remoteWithSpec spec3)).1 ≠ upload.resolved :=
  have hs : spec3.Error ≠ some [] := by decide
  have h := upload_spec_errors (remoteWithSpec spec3) spec3 rfl rfl rfl rfl rfl hs
  ⟨hs, rfl, (h.2.2 rfl).2, fun he => (h.1.mp he) rfl⟩

/-- C9 (counterexample): a result with the two hard errors "E1" and "E2" makes `upload`
return the error "E1"; the message "E2" of the second hard error does not occur in
it. -/
theorem upload_spec_errors_counterexample :
    upload (remoteWithSpec specTwoErrors) = (upload.resolved, .returned none (some "E1")) ∧
      (⟨"E2"⟩ : LocalizedMethodFault) ∈ specTwoErrors.Error.getD [] ∧
      ¬ ("E2".data <:+: "E1".data) := by
  refine ⟨by decide, by decide, by decide⟩

/-! ## The file list of `PostProcess` (C10) -/

theorem ne_empty_of_HasSuffix_ovf {s : String} (h : HasSuffix s ".ovf" = true) : s ≠ "" := by
  rintro rfl
  revert h
  decide

theorem ne_empty_of_HasSuffix_vmdk {s : String} (h : HasSuffix s ".vmdk" = true) : s ≠ "" := by
  rintro rfl
  revert h
  decide

theorem PostProcess.scan_nil (vmdkPath : String) : PostProcess.scan [] vmdkPath = ("", vmdkPath) :=
  rfl

theorem PostProcess.scan_cons (path : String) (rest : List String) (vmdkPath : String) :
    PostProcess.scan (path :: rest) vmdkPath
      = if HasSuffix path ".ovf" then (path, vmdkPath)
        else if HasSuffix path ".vmdk" then PostProcess.scan rest path
        else PostProcess.scan rest vmdkPath := by
  rw [PostProcess.scan]

/-- What the loop over the file list finds, for any entry value of `vmdkPath`. -/
theorem PostProcess.scan_spec : ∀ (files : List String) (vmdkPath ovf : String),
    ((PostProcess.scan files vmdkPath).1 = ovf ∧ ovf ≠ "" ∧ (PostProcess.scan files vmdkPath).2 ≠ "")
      ↔ ∃ pre post, files = pre ++ ovf :: post ∧ HasSuffix ovf ".ovf" = true ∧
          (∀ x ∈ pre, HasSuffix x ".ovf" = false) ∧
          (vmdkPath ≠ "" ∨ ∃ v ∈ pre, HasSuffix v ".vmdk" = true) := by
  intro files
  induction files with
  | nil =>
    intro vmdkPath ovf
    rw [PostProcess.scan_nil]
    constructor
    · rintro ⟨h1, h2, _⟩
      exact absurd h1.symm h2
    · rintro ⟨pre, post, h, _⟩
      simp at h
  | cons path rest ih =>
    intro vmdkPath ovf
    rw [PostProcess.scan_cons]
    by_cases hovf : HasSuffix path ".ovf" = true
    · rw [if_pos hovf]
      constructor
      · rintro ⟨h1, _, h3⟩
        simp only at h1 h3
        subst h1
        exact ⟨[], rest, rfl, hovf, by simp, Or.inl h3⟩
      · rintro ⟨pre, post, h, _, hpre, hv⟩
        cases pre with
        | nil =>
          simp only [List.nil_append, List.cons.injEq] at h
          obtain ⟨rfl, -⟩ := h
          rcases hv with hv | ⟨v, hv, _⟩
          · exact ⟨rfl, ne_empty_of_HasSuffix_ovf hovf, hv⟩
          · simp at hv
        | cons x pre =>
          simp only [List.cons_append, List.cons.injEq] at h
          obtain ⟨rfl, -⟩ := h
          have := hpre path (List.mem_cons_self _ _)
          rw [hovf] at this
          cases this
    · rw [if_neg hovf]
      have hovf' : HasSuffix path ".ovf" = false := by simpa using hovf
      -- the first ".ovf" path, if any, is in `rest`
      have hshift : ∀ (P : List String → Prop),
          (∃ pre post, path :: rest = pre ++ ovf :: post ∧ HasSuffix ovf ".ovf" = true ∧
            (∀ x ∈ pre, HasSuffix x ".ovf" = false) ∧ P pre)
          ↔ ∃ pre post, rest = pre ++ ovf :: post ∧ HasSuffix ovf ".ovf" = true ∧
            (∀ x ∈ pre, HasSuffix x ".ovf" = false) ∧ P (path :: pre) := by
        intro P
        constructor
        · rintro ⟨pre, post, h, ho, hpre, hP⟩
          cases pre with
          | nil =>
            simp only [List.nil_append, List.cons.injEq] at h
            obtain ⟨rfl, -⟩ := h
            rw [ho] at hovf'
            cases hovf'
          | cons x pre =>
            simp only [List.cons_append, List.cons.injEq] at h
            obtain ⟨rfl, h⟩ := h
            exact ⟨pre, post, h, ho, fun y hy => hpre y (List.mem_cons_of_mem _ hy), hP⟩
        · rintro ⟨pre, post, h, ho, hpre, hP⟩
          refine ⟨path :: pre, post, by rw [h]; rfl, ho, ?_, hP⟩
          intro y hy
          rcases List.mem_cons.mp hy with rfl | hy
          · exact hovf'
          · exact hpre y hy
      rw [hshift (fun pre => vmdkPath ≠ "" ∨ ∃ v ∈ pre, HasSuffix v ".vmdk" = true)]
      by_cases hvmdk : HasSuffix path ".vmdk" = true
      · rw [if_pos hvmdk, ih path ovf]
        have hne := ne_empty_of_HasSuffix_vmdk hvmdk
        constructor
        · rintro ⟨pre, post, h, ho, hpre, _⟩
          exact ⟨pre, post, h, ho, hpre, Or.inr ⟨path, List.mem_cons_self _ _, hvmdk⟩⟩
        · rintro ⟨pre, post, h, ho, hpre, _⟩
          exact ⟨pre, post, h, ho, hpre, Or.inl hne⟩
      · rw [if_neg hvmdk, ih vmdkPath ovf]
        constructor
        · rintro ⟨pre, post, h, ho, hpre, hv⟩
          refine ⟨pre, post, h, ho, hpre, ?_⟩
          rcases hv with hv | ⟨v, hv, hvv⟩
          · exact Or.inl hv
          · exact Or.inr ⟨v, List.mem_cons_of_mem _ hv, hvv⟩
        · rintro ⟨pre, post, h, ho, hpre, hv⟩
          refine ⟨pre, post, h, ho, hpre, ?_⟩
          rcases hv with hv | ⟨v, hv, hvv⟩
          · exact Or.inl hv
          · rcases List.mem_cons.mp hv with rfl | hv
            · exact absurd hvv hvmdk
            · exact Or.inr ⟨v, hv, hvv⟩

theorem PostProcess_handled (HandleOVF : String → Option GoError) (artifact : Artifact)
    (hb : (builtins.lookup artifact.BuilderId).isSome = true) :
    (PostProcess HandleOVF artifact).handled
      = if (PostProcess.scan artifact.Files "").1 = "" ∨ (PostProcess.scan artifact.Files "").2 = ""
        then [] else [(PostProcess.scan artifact.Files "").1] := by
  unfold PostProcess
  have : (builtins.lookup artifact.BuilderId).isNone = false := by
    cases h : builtins.lookup artifact.BuilderId with
    | none => rw [h] at hb; cases hb
    | some v => rfl
  rw [this]
  simp only [Bool.false_eq_true, if_false]
  split_ifs with h
  · rfl
  · cases HandleOVF (PostProcess.scan artifact.Files "").1 <;> rfl

/-- The result of `PostProcess` once the loop has found both paths: `HandleOVF` is
applied to the `.ovf` path and its error, if any, is returned. -/
theorem PostProcess_of_found (HandleOVF : String → Option GoError) (artifact : Artifact)
    (hb : (builtins.lookup artifact.BuilderId).isSome = true)
    (h1 : (PostProcess.scan artifact.Files "").1 ≠ "")
    (h2 : (PostProcess.scan artifact.Files "").2 ≠ "") :
    (PostProcess HandleOVF artifact).err = HandleOVF (PostProcess.scan artifact.Files "").1 ∧
      (PostProcess HandleOVF artifact).keep = false ∧
      (PostProcess HandleOVF artifact).artifact
        = if (HandleOVF (PostProcess.scan artifact.Files "").1).isNone then some artifact
          else none := by
  have hnone : (builtins.lookup artifact.BuilderId).isNone = false := by
    cases h : builtins.lookup artifact.BuilderId with
    | none => rw [h] at hb; cases hb
    | some v => rfl
  unfold PostProcess
  rw [hnone]
  simp only [Bool.false_eq_true, if_false]
  rw [if_neg (by rw [not_or]; exact ⟨h1, h2⟩)]
  cases HandleOVF (PostProcess.scan artifact.Files "").1 <;> exact ⟨rfl, rfl, rfl⟩

/-- C10: for an artifact whose builder id is one of the builtins, `PostProcess` proceeds
to `HandleOVF`, applied to the first path of `Files()` that ends in ".ovf", if and only
if `Files()` contains a path ending in ".ovf" and a path ending in ".vmdk" occurs before
the first such path; it then returns the error of `HandleOVF` (and the artifact when
that error is nil). In every other case, also when the ".ovf" is listed before every
".vmdk", it returns the OVF/VMDK error without calling `HandleOVF`, whatever `HandleOVF`
would answer. For a builder id that is not in `builtins` it returns the unknown-artifact
error without calling `HandleOVF`. -/
theorem PostProcess_handles_first_ovf_after_vmdk (HandleOVF : String → Option GoError)
    (artifact : Artifact) :
    ((builtins.lookup artifact.BuilderId).isSome = true →
      (∀ ovf, (PostProcess HandleOVF artifact).handled = [ovf]
        ↔ vmdkBeforeFirstOvf artifact.Files ovf) ∧
      (∀ ovf, vmdkBeforeFirstOvf artifact.Files ovf →
        (PostProcess HandleOVF artifact).err = HandleOVF ovf ∧
          (PostProcess HandleOVF artifact).keep = false ∧
          (PostProcess HandleOVF artifact).artifact
            = if (HandleOVF ovf).isNone then some artifact else none) ∧
      ((¬ ∃ ovf, vmdkBeforeFirstOvf artifact.Files ovf) →
        (PostProcess HandleOVF artifact).handled = [] ∧
          (PostProcess HandleOVF artifact).artifact = none ∧
          (PostProcess HandleOVF artifact).keep = false ∧
          (PostProcess HandleOVF artifact).err = some "ERROR: OVF/VMDK were found")) ∧
    ((builtins.lookup artifact.BuilderId).isSome = false →
      (PostProcess HandleOVF artifact).handled = [] ∧
        (PostProcess HandleOVF artifact).artifact = none ∧
        (PostProcess HandleOVF artifact).keep = false ∧
        (PostProcess HandleOVF artifact).err
          = some ("Unknown artifact type, can't build box: " ++ artifact.BuilderId)) := by
  have hspec : ∀ ovf, ((PostProcess.scan artifact.Files "").1 = ovf ∧ ovf ≠ "" ∧
      (PostProcess.scan artifact.Files "").2 ≠ "") ↔ vmdkBeforeFirstOvf artifact.Files ovf := by
    intro ovf
    rw [PostProcess.scan_spec]
    unfold vmdkBeforeFirstOvf
    simp
  constructor
  · intro hb
    have hh := PostProcess_handled HandleOVF artifact hb
    refine ⟨?_, ?_, ?_⟩
    · intro ovf
      rw [hh, ← hspec]
      split_ifs with h
      · constructor
        · intro h'
          cases h'
        · rintro ⟨h1, h2, h3⟩
          rcases h with h | h
          · rw [h1] at h
            exact absurd h h2
          · exact absurd h h3
      · rw [not_or] at h
        constructor
        · intro h'
          simp only [List.cons.injEq, and_true] at h'
          exact ⟨h', by rw [← h']; exact h.1, h.2⟩
        · rintro ⟨h1, -, -⟩
          rw [h1]
    · intro ovf hovf
      obtain ⟨h1, h2, h3⟩ := (hspec ovf).mpr hovf
      have hf := PostProcess_of_found HandleOVF artifact hb (by rw [h1]; exact h2) h3
      rw [h1] at hf
      exact hf
    · intro hno
      have hfail : (PostProcess.scan artifact.Files "").1 = "" ∨
          (PostProcess.scan artifact.Files "").2 = "" := by
        by_contra hcon
        rw [not_or] at hcon
        exact hno ⟨_, (hspec _).mp ⟨rfl, hcon.1, hcon.2⟩⟩
      have hnone : (builtins.lookup artifact.BuilderId).isNone = false := by
        cases h : builtins.lookup artifact.BuilderId with
        | none => rw [h] at hb; cases hb
        | some v => rfl
      unfold PostProcess
      rw [hnone]
      simp only [Bool.false_eq_true, if_false]
      rw [if_pos hfail]
      exact ⟨rfl, rfl, rfl, rfl⟩
  · intro hb
    have hnone : (builtins.lookup artifact.BuilderId).isNone = true := by
      cases h : builtins.lookup artifact.BuilderId with
      | none => rfl
      | some v => rw [h] at hb; cases hb
    unfold PostProcess
    rw [hnone, if_pos rfl]
    exact ⟨rfl, rfl, rfl, rfl⟩

/-- C10 (witness): a VMware artifact listing the disk before the descriptor is handled
with the descriptor path, and the error of `HandleOVF` is what `PostProcess` returns;
listing the descriptor first is an error; so is an unknown builder. -/
theorem PostProcess_handles_first_ovf_after_vmdk_witness :
    vmdkBeforeFirstOvf ["disk.vmdk", "box.ovf"] "box.ovf" ∧
      (PostProcess (fun _ => none) ⟨"mitchellh.vmware", ["disk.vmdk", "box.ovf"]⟩).handled
        = ["box.ovf"] ∧
      (PostProcess (fun path => some ("cannot read " ++ path))
          ⟨"mitchellh.vmware", ["disk.vmdk", "box.ovf"]⟩).err = some "cannot read box.ovf" ∧
      (PostProcess (fun path => some ("cannot read " ++ path))
          ⟨"mitchellh.vmware", ["disk.vmdk", "box.ovf"]⟩).artifact = none ∧
      (PostProcess (fun _ => none) ⟨"mitchellh.vmware", ["disk.vmdk", "box.ovf"]⟩).artifact
        = some ⟨"mitchellh.vmware", ["disk.vmdk", "box.ovf"]⟩ ∧
      (PostProcess (fun _ => none) ⟨"mitchellh.vmware", ["box.ovf", "disk.vmdk"]⟩).handled = [] ∧
      (PostProcess (fun _ => none) ⟨"mitchellh.vmware", ["box.ovf", "disk.vmdk"]⟩).err
        = some "ERROR: OVF/VMDK were found" ∧
      (PostProcess (fun _ => none) ⟨"hashicorp.docker", ["disk.vmdk", "box.ovf"]⟩).handled = [] := by
  have hcond : vmdkBeforeFirstOvf ["disk.vmdk", "box.ovf"] "box.ovf" :=
    ⟨["disk.vmdk"], [], rfl, by decide, by decide, "disk.vmdk", by simp, by decide⟩
  have hok := (PostProcess_handles_first_ovf_after_vmdk (fun _ => none)
    ⟨"mitchellh.vmware", ["disk.vmdk", "box.ovf"]⟩).1 (by decide)
  have hfail := (PostProcess_handles_first_ovf_after_vmdk
    (fun path => some ("cannot read " ++ path))
    ⟨"mitchellh.vmware", ["disk.vmdk", "box.ovf"]⟩).1 (by decide)
  refine ⟨hcond, (hok.1 "box.ovf").mpr hcond, ?_, ?_, ?_, ?_, ?_, ?_⟩
  · rw [(hfail.2.1 "box.ovf" hcond).1]
    decide
  · rw [(hfail.2.1 "box.ovf" hcond).2.2]
    rfl
  · rw [(hok.2.1 "box.ovf" hcond).2.2]
    rfl
  · decide
  · decide
  · exact ((PostProcess_handles_first_ovf_after_vmdk (fun _ => none)
      ⟨"hashicorp.docker", ["disk.vmdk", "box.ovf"]⟩).2 (by decide)).1
